import Mathlib

/-!
# The DNA annotation scanner (`cmd/program.go`)

A shallow embedding of `GetMatches`, the extractor of `@@DNA ... @@END`
blocks, and of the viewer transitions `Layout`, `NewView`, `NextView`,
`PreviousView` and `OpenInEditor`.

Go strings are byte sequences: a string is a list of byte values, slicing and
substring search work on bytes, and only `strings.TrimSpace` looks at the
UTF-8 encoding.  A run-time panic of the Go program is the result `none`.
-/

namespace DNA

/-! ## Strings -/

/-- A Go `string`: a sequence of bytes. -/
abbrev GoString := List Nat

/-- The bytes of an ASCII literal. -/
def str (s : String) : GoString := s.toList.map Char.toNat

/-- The line feed byte. -/
def nl : Nat := 10

/-- The slice expression `s[lo:len(s)]`; it panics unless `0 ≤ lo ≤ len(s)`. -/
def sliceFrom (s : GoString) (lo : Int) : Option GoString :=
  if 0 ≤ lo ∧ lo ≤ (s.length : Int) then some (s.drop lo.toNat) else none

/-- The function `strings.Contains(s, substr)`. -/
def Contains : GoString → GoString → Bool
  | [], substr => substr.isPrefixOf []
  | c :: t, substr => substr.isPrefixOf (c :: t) || Contains t substr

/-- The text before and the text after the first occurrence of `sep` in `s`. -/
def cut : GoString → GoString → Option (GoString × GoString)
  | [], sep => if sep.isPrefixOf [] then some ([], []) else none
  | c :: t, sep =>
    if sep.isPrefixOf (c :: t) then some ([], (c :: t).drop sep.length)
    else (cut t sep).map (fun r => (c :: r.1, r.2))

/-- The function `strings.Split(s, "\n")`: the pieces between line feeds,
one more than there are line feeds. -/
def splitLines : GoString → List GoString
  | [] => [[]]
  | c :: t =>
    if c = nl then [] :: splitLines t
    else
      match splitLines t with
      | [] => [[c]]
      | l :: ls => (c :: l) :: ls

/-- The method `strings.NewReplacer(old, new).Replace(s)` for a non-empty `old`:
the occurrences of `old` are replaced from left to right without overlap.
The first argument counts the bytes of a found occurrence still to skip. -/
def replaceFrom (old new : GoString) : Nat → GoString → GoString
  | _, [] => []
  | k + 1, _ :: t => replaceFrom old new k t
  | 0, c :: t =>
    if old.isPrefixOf (c :: t) then new ++ replaceFrom old new (old.length - 1) t
    else c :: replaceFrom old new 0 t

/-- The replacer applied to a whole string. -/
def Replace (old new s : GoString) : GoString := replaceFrom old new 0 s

/-! ### `strings.TrimSpace`

White space is Unicode's `White_Space`: the ASCII bytes 9 to 13 and 32, and the
runes U+0085, U+00A0, U+1680, U+2000 to U+200A, U+2028, U+2029, U+202F, U+205F
and U+3000 in their UTF-8 encoding. -/

/-- ASCII white space. -/
def isAsciiSpace (b : Nat) : Bool :=
  b == 9 || b == 10 || b == 11 || b == 12 || b == 13 || b == 32

/-- The two-byte encodings of U+0085 and U+00A0. -/
def isSpace2 (a b : Nat) : Bool := a == 0xC2 && (b == 0x85 || b == 0xA0)

/-- The three-byte encodings of the white-space runes from U+1680 on. -/
def isSpace3 (a b c : Nat) : Bool :=
  (a == 0xE1 && b == 0x9A && c == 0x80) ||
  (a == 0xE2 && b == 0x80 &&
    ((0x80 ≤ c && c ≤ 0x8A) || c == 0xA8 || c == 0xA9 || c == 0xAF)) ||
  (a == 0xE2 && b == 0x81 && c == 0x9F) ||
  (a == 0xE3 && b == 0x80 && c == 0x80)

/-- Width of the white-space rune that starts `s`, `0` when `s` starts with none. -/
def spaceWidth : GoString → Nat
  | [] => 0
  | [a] => if isAsciiSpace a then 1 else 0
  | [a, b] => if isAsciiSpace a then 1 else if isSpace2 a b then 2 else 0
  | a :: b :: c :: _ =>
    if isAsciiSpace a then 1 else if isSpace2 a b then 2
    else if isSpace3 a b c then 3 else 0

/-- Width of the white-space rune that ends a string, given the string reversed. -/
def lastSpaceWidth : GoString → Nat
  | [] => 0
  | [z] => if isAsciiSpace z then 1 else 0
  | [z, y] => if isAsciiSpace z then 1 else if isSpace2 y z then 2 else 0
  | z :: y :: x :: _ =>
    if isAsciiSpace z then 1 else if isSpace2 y z then 2
    else if isSpace3 x y z then 3 else 0

/-- Drop white-space runes from the front, `width` telling how wide the next
one is.  The first argument counts the bytes of the current rune still to drop. -/
def trimFrom (width : GoString → Nat) : Nat → GoString → GoString
  | _, [] => []
  | k + 1, _ :: t => trimFrom width k t
  | 0, c :: t =>
    match width (c :: t) with
    | 0 => c :: t
    | w + 1 => trimFrom width w t

/-- The function `strings.TrimLeftFunc(s, unicode.IsSpace)`. -/
def trimLeft (s : GoString) : GoString := trimFrom spaceWidth 0 s

/-- The function `strings.TrimRightFunc(s, unicode.IsSpace)`. -/
def trimRight (s : GoString) : GoString := (trimFrom lastSpaceWidth 0 s.reverse).reverse

/-- The function `strings.TrimSpace(s)`. -/
def TrimSpace (s : GoString) : GoString := trimRight (trimLeft s)

/-! ### The regular expression `(?s)@[@]DNA(.*?)@@END` -/

/-- The start marker. -/
def startMarker : GoString := str "@@DNA"

/-- The end marker. -/
def endMarker : GoString := str "@@END"

/-- The matches of `(?s)@[@]DNA(.*?)@@END` in `s` by `FindAllString(s, -1)`,
at most `fuel` of them: a match starts at the leftmost start marker and, the
body being lazy, ends with the first end marker after it; the search goes on
behind the match. -/
def findBlocksFuel : Nat → GoString → List GoString
  | 0, _ => []
  | fuel + 1, s =>
    match cut s startMarker with
    | none => []
    | some (_, afterStart) =>
      match cut afterStart endMarker with
      | none => []
      | some (body, rest) =>
        (startMarker ++ body ++ endMarker) :: findBlocksFuel fuel rest

/-- All matches: a match is at least ten bytes long, so `len(s)` is fuel enough. -/
def findBlocks (s : GoString) : List GoString := findBlocksFuel s.length s

/-! ## Records and `GetMatches` -/

/-- The struct `DNAFile`; a fresh `var tmpDNA DNAFile` has every field zero. -/
structure DNAFile where
  Location : GoString := []
  Description : GoString := []
  Status : GoString := []
  Input : GoString := []
  Output : GoString := []
  Place : Int := 0
  deriving DecidableEq

/-- The label tested first. -/
def labelStatus : GoString := str "Status: "

/-- The label tested second. -/
def labelInput : GoString := str "Input: "

/-- The label tested third. -/
def labelOutput : GoString := str "Output: "

/-- The label tested last. -/
def labelDescription : GoString := str "Description: "

/-- One turn of the loop over the lines of a match (lines 247 to 263): the
line is trimmed, a marker line is skipped, and the first `case` whose label
the line contains assigns its slice of the line. -/
def parseLine (tmpDNA : DNAFile) (line : GoString) : Option DNAFile :=
  let m := TrimSpace line
  if m = startMarker ∨ m = endMarker then some tmpDNA
  else if Contains m labelStatus then
    (sliceFrom m 7).map fun v => { tmpDNA with Status := v }
  else if Contains m labelInput then
    (sliceFrom m 6).map fun v => { tmpDNA with Input := v }
  else if Contains m labelOutput then
    (sliceFrom m 7).map fun v => { tmpDNA with Output := v }
  else if Contains m labelDescription then
    (sliceFrom m 12).map fun v => { tmpDNA with Description := v }
  else some tmpDNA

/-- The loop over the lines of a match. -/
def parseLines (tmpDNA : DNAFile) : List GoString → Option DNAFile
  | [] => some tmpDNA
  | line :: rest => (parseLine tmpDNA line).bind fun t => parseLines t rest

/-- The record built from one match (lines 245 to 264): the fields parsed
from its lines and the path of the file as `Location`. -/
def blockRecord (element block : GoString) : Option DNAFile :=
  (parseLines {} (splitLines block)).map fun t => { t with Location := element }

/-- The body of the loop over the matches of a file (lines 242 to 269), on
the match store `ms`. -/
def processMatch (element : GoString) (ms : List DNAFile) (block : GoString) :
    Option (List DNAFile) :=
  if block.length ≠ 0 then
    (blockRecord element block).map fun tmpDNA =>
      if tmpDNA.Description ≠ [] then ms ++ [tmpDNA] else ms
  else some ms

/-- The loop over a list of matches. -/
def processMatches (element : GoString) (ms : List DNAFile) :
    List GoString → Option (List DNAFile)
  | [] => some ms
  | block :: rest => (processMatch element ms block).bind fun ms1 =>
      processMatches element ms1 rest

/-- Block matching and field parsing on the text of one file (lines 239 to
270). -/
def extractBlocks (element text : GoString) (ms : List DNAFile) : Option (List DNAFile) :=
  processMatches element ms (findBlocks text)

/-- The test `element[len(element)-k:len(element)] == ext`. -/
def extensionIs (element : GoString) (k : Nat) (ext : GoString) : Option Bool :=
  (sliceFrom element ((element.length : Int) - k)).map fun e => decide (e = ext)

/-- The comment markers are taken out of the file data (lines 230 to 237).
In `a || b` the test `b` is evaluated only when `a` is false. -/
def normalize (element file_data : GoString) : Option GoString :=
  (extensionIs element 5 (str ".java")).bind fun isJava =>
  (if isJava then some true else extensionIs element 3 (str ".js")).bind fun slashes =>
  let data1 := if slashes then Replace (str "//") [] file_data else file_data
  (extensionIs element 3 (str ".py")).map fun isPy =>
  if isPy then Replace (str "#") [] data1 else data1

/-- The body of the loop over the files (lines 226 to 270).  `readFile` is
`ioutil.ReadFile`: for a file that cannot be read the error is printed and
the data is empty. -/
def scanFile (readFile : GoString → Option GoString) (ms : List DNAFile)
    (element : GoString) : Option (List DNAFile) :=
  let file_data := (readFile element).getD []
  (normalize element file_data).bind fun text => extractBlocks element text ms

/-- The function `GetMatches`, on the global `matches` passed as `ms`. -/
def GetMatches (readFile : GoString → Option GoString) :
    List GoString → List DNAFile → Option (List DNAFile)
  | [], ms => some ms
  | element :: rest, ms => (scanFile readFile ms element).bind fun ms1 =>
      GetMatches readFile rest ms1

/-! ## The viewer -/

/-- The errors of the terminal library. -/
inductive GoError where
  | ErrUnknownView
  | ErrQuit
  | other (code : Nat)
  deriving DecidableEq

/-- The calls into `gocui`, on a terminal state of type `G`.  Each call gives
the next terminal state and its error, `none` for `nil`. -/
structure Gocui (G : Type) where
  Size : G → Int × Int
  SetView : G → GoString → Int → Int → Int → Int → G × Option GoError
  Fprintf : G → GoString → GoString → G
  SetViewOnTop : G → GoString → G × Option GoError
  SetCurrentView : G → GoString → G × Option GoError
  DeleteView : G → GoString → G × Option GoError

/-- The globals `matches` and `viewIndex` and the terminal.  `viewIndex` stays
between `-1` and `len(matches)`, so its 64-bit arithmetic never wraps. -/
structure Viewer (G : Type) where
  ms : List DNAFile
  viewIndex : Int
  g : G

/-- The function `strconv.Itoa`. -/
def Itoa (i : Int) : GoString := str (toString i)

/-- The index expression `matches[i]`, which panics out of range. -/
def index (ms : List DNAFile) (i : Int) : Option DNAFile :=
  if 0 ≤ i then ms.get? i.toNat else none

/-- The text `NewView` prints into a fresh pane (lines 140 to 155). -/
def paneText (m : DNAFile) (viewIndex : Int) (n : Nat) : GoString :=
  (if m.Location ≠ [] then m.Location ++ [nl] else []) ++
  (if m.Description ≠ [] then str "Description:" ++ [nl] ++ m.Description ++ [nl] else []) ++
  (if m.Input ≠ [] then str "Input:" ++ [nl] ++ m.Input ++ [nl] else []) ++
  (if m.Output ≠ [] then str "Output:" ++ [nl] ++ m.Output ++ [nl] else []) ++
  (if m.Status ≠ [] then str "Status:" ++ m.Status ++ [nl] else []) ++
  [nl] ++ Itoa (viewIndex + 1) ++ str "/" ++ Itoa n ++ [nl]

/-- The clamp of `viewIndex` at the head of `NewView` (lines 125 to 130). -/
def clampIndex (ms : List DNAFile) (viewIndex : Int) : Int :=
  let i := if viewIndex ≥ (ms.length : Int) then (ms.length : Int) - 1 else viewIndex
  if i < 0 then 0 else i

/-- The function `NewView`: the state after the call and the returned error,
or `none` when `matches[viewIndex]` panics. -/
def NewView {G : Type} (api : Gocui G) (st : Viewer G) : Option (Viewer G × Option GoError) :=
  let viewIndex := clampIndex st.ms st.viewIndex
  (index st.ms viewIndex).bind fun m =>
  let size := api.Size st.g
  let name := Itoa viewIndex
  let r1 := api.SetView st.g name 0 0 (Int.tdiv (4 * size.1) 5) (size.2 - 1)
  let st1 : Viewer G := { ms := st.ms, viewIndex := viewIndex, g := r1.1 }
  if r1.2 ≠ none ∧ r1.2 ≠ some GoError.ErrUnknownView then some (st1, r1.2)
  else
    let g2 := if r1.2 ≠ none then api.Fprintf r1.1 name (paneText m viewIndex st.ms.length)
              else r1.1
    let r3 := api.SetViewOnTop g2 (str "main")
    if r3.2 ≠ none then some ({ st1 with g := r3.1 }, r3.2)
    else
      let r4 := api.SetCurrentView r3.1 name
      if r4.2 ≠ none then some ({ st1 with g := r4.1 }, r4.2)
      else if viewIndex - 1 ≥ 0 then
        -- `err` is the `nil` of `SetViewOnTop`: whatever `DeleteView` says, `nil` is returned
        let r5 := api.DeleteView r4.1 (Itoa (viewIndex - 1))
        some ({ st1 with g := r5.1 }, none)
      else some ({ st1 with g := r4.1 }, none)

/-- The function `NextView`. -/
def NextView {G : Type} (api : Gocui G) (st : Viewer G) : Option (Viewer G × Option GoError) :=
  NewView api { st with viewIndex := st.viewIndex + 1 }

/-- The function `PreviousView`. -/
def PreviousView {G : Type} (api : Gocui G) (st : Viewer G) :
    Option (Viewer G × Option GoError) :=
  NewView api { st with viewIndex := st.viewIndex - 1 }

/-- The legend of the help pane. -/
def legend : GoString :=
  [0xE2, 0x86, 0x90, 32, 0xE2, 0x86, 0x92] ++ str " to navigate" ++ [nl] ++
  str "Ctrl-C to exit" ++ [nl] ++ [39, 118, 39] ++ str " to open in vim"

/-- The function `Layout`. -/
def Layout {G : Type} (api : Gocui G) (st : Viewer G) : Option (Viewer G × Option GoError) :=
  let maxX := (api.Size st.g).1
  let r1 := api.SetView st.g (str "main") (Int.tdiv (4 * maxX) 5) 0 (maxX - 1) 4
  if r1.2 ≠ none then
    if r1.2 ≠ some GoError.ErrUnknownView then some ({ st with g := r1.1 }, r1.2)
    else NewView api { st with g := api.Fprintf r1.1 (str "main") legend }
  else some ({ st with g := r1.1 }, none)

/-! ## The extractor without panics

The slices of `parseLine` are always in range (`parseLine_eq`), so the
extractor is also a total function. -/

/-- The record after one line: `parseLine` with the slice taken by `drop`. -/
def lineField (tmpDNA : DNAFile) (line : GoString) : DNAFile :=
  let m := TrimSpace line
  if m = startMarker ∨ m = endMarker then tmpDNA
  else if Contains m labelStatus then { tmpDNA with Status := m.drop 7 }
  else if Contains m labelInput then { tmpDNA with Input := m.drop 6 }
  else if Contains m labelOutput then { tmpDNA with Output := m.drop 7 }
  else if Contains m labelDescription then { tmpDNA with Description := m.drop 12 }
  else tmpDNA

/-- The record of a block: `blockRecord` as a total function. -/
def blockFields (element block : GoString) : DNAFile :=
  { (splitLines block).foldl lineField {} with Location := element }

/-- The records of a list of blocks, those without a description left out. -/
def keptRecords (element : GoString) (blocks : List GoString) : List DNAFile :=
  (blocks.map (blockFields element)).filter fun r => decide (r.Description ≠ [])

/-- The records of the text of one file. -/
def fileRecords (element text : GoString) : List DNAFile :=
  keptRecords element (findBlocks text)

/-! ## Texts of the claims and of the examples -/

/-- A block for the examples: it has an input line and no description. -/
def blockWithoutDescription : GoString :=
  startMarker ++ [nl] ++ str "Input: a, b" ++ [nl] ++ endMarker

/-- Lines joined by line feeds. -/
def joinLines : List GoString → GoString
  | [] => []
  | [l] => l
  | l :: ls => l ++ nl :: joinLines ls

/-- The six lines of a tagged block with its four fields in the order of the
tag syntax. -/
def sixLines (d i o s : GoString) : GoString :=
  joinLines [startMarker, labelDescription ++ d, labelInput ++ i, labelOutput ++ o,
    labelStatus ++ s, endMarker]

/-- A field text of the claims: not empty, on one line, no white space at its
ends, none of the four labels in it. -/
def fieldText (x : GoString) : Prop :=
  x ≠ [] ∧ nl ∉ x ∧ TrimSpace x = x ∧ Contains x labelStatus = false ∧
    Contains x labelInput = false ∧ Contains x labelOutput = false ∧
    Contains x labelDescription = false

/-- The content of scenario A. -/
def scenarioA : GoString :=
  sixLines (str "adds two numbers") (str "a, b") (str "sum") (str "Done")

/-- A variant of scenario A whose description mentions the end marker. -/
def scenarioEndInside : GoString :=
  sixLines (str "stops at @@END here") (str "a, b") (str "sum") (str "Done")

/-- A line on which the `Description: ` case of the switch is taken: no
marker line, none of the labels tested before, and the description label. -/
def isDescriptionLine (line : GoString) : Bool :=
  let m := TrimSpace line
  decide (m ≠ startMarker) && decide (m ≠ endMarker) && !Contains m labelStatus &&
    !Contains m labelInput && !Contains m labelOutput && Contains m labelDescription

/-- A block with a description line. -/
def hasDescriptionLine (block : GoString) : Prop :=
  ∃ line ∈ splitLines block, isDescriptionLine line = true

/-- A tagged block with a body: the start marker, the body, the end marker. -/
def tagged (body : GoString) : GoString := startMarker ++ body ++ endMarker

/-- The body of the first block of the two-block example. -/
def bodyOne : GoString := [nl] ++ str "Description: first" ++ [nl]

/-- The body of the second block of the two-block example. -/
def bodyTwo : GoString := [nl] ++ str "Description: second" ++ [nl] ++ str "Status: Done" ++ [nl]

/-! ## Sequences of navigation keys -/

/-- The two navigation keys. -/
inductive Move where
  | next
  | previous
  deriving DecidableEq

/-- The handler bound to a navigation key. -/
def handle {G : Type} (api : Gocui G) (st : Viewer G) : Move → Option (Viewer G × Option GoError)
  | Move.next => NextView api st
  | Move.previous => PreviousView api st

/-- The state after a sequence of navigation keys, whatever errors the
handlers return on the way; `none` when a handler panics. -/
def runMoves {G : Type} (api : Gocui G) : Viewer G → List Move → Option (Viewer G)
  | st, [] => some st
  | st, mv :: rest => (handle api st mv).bind fun r => runMoves api r.1 rest

/-- A terminal in which every call succeeds and every pane is new: `SetView`
answers `ErrUnknownView`, as it does for a pane it creates. -/
def freshTerminal : Gocui Unit where
  Size := fun _ => (80, 24)
  SetView := fun _ _ _ _ _ _ => ((), some GoError.ErrUnknownView)
  Fprintf := fun _ _ _ => ()
  SetViewOnTop := fun _ _ => ((), none)
  SetCurrentView := fun _ _ => ((), none)
  DeleteView := fun _ _ => ((), none)

/-- A match store of three records for the examples. -/
def threeRecords : List DNAFile :=
  [{ Location := str "a.go", Description := str " one" },
   { Location := str "b.go", Description := str " two" },
   { Location := str "c.go", Description := str " three" }]

/-! ## The case taken on a line -/

/-- The four fields that the switch assigns. -/
inductive Field where
  | Status
  | Input
  | Output
  | Description
  deriving DecidableEq

/-- The value of a field of a record. -/
def getField (r : DNAFile) : Field → GoString
  | Field.Status => r.Status
  | Field.Input => r.Input
  | Field.Output => r.Output
  | Field.Description => r.Description

/-- The assignment to a field of a record. -/
def setField (r : DNAFile) : Field → GoString → DNAFile
  | Field.Status, v => { r with Status := v }
  | Field.Input, v => { r with Input := v }
  | Field.Output, v => { r with Output := v }
  | Field.Description, v => { r with Description := v }

/-- The case of the switch taken on a line: the field assigned and its value,
`none` on a marker line and on a line without label. -/
def lineCase (line : GoString) : Option (Field × GoString) :=
  let m := TrimSpace line
  if m = startMarker ∨ m = endMarker then none
  else if Contains m labelStatus then some (Field.Status, m.drop 7)
  else if Contains m labelInput then some (Field.Input, m.drop 6)
  else if Contains m labelOutput then some (Field.Output, m.drop 7)
  else if Contains m labelDescription then some (Field.Description, m.drop 12)
  else none

/-- A block with two description lines. -/
def twoDescriptions : GoString :=
  joinLines [startMarker, str "Description: first", str "Description: second", endMarker]

/-- A block whose description goes on in a second line. -/
def withContinuation : GoString :=
  joinLines [startMarker, str "Description: adds two", str "  numbers", str "Status: Done",
    endMarker]

/-- The block `withContinuation` without its continuation line. -/
def withoutContinuation : GoString :=
  joinLines [startMarker, str "Description: adds two", str "Status: Done", endMarker]

/-! ## Prefixed lines -/

/-- The text `c` with every line prefixed by `p`. -/
def prefixLines (p c : GoString) : GoString :=
  joinLines ((splitLines c).map fun line => p ++ line)

/-- The text `p` put behind every line feed of a text. -/
def afterLineFeeds (p : GoString) : GoString → GoString
  | [] => []
  | b :: t => if b = nl then nl :: (p ++ afterLineFeeds p t) else b :: afterLineFeeds p t

/-- The four parsed fields of a record: description, input, output, status. -/
def fieldsOf (r : DNAFile) : GoString × GoString × GoString × GoString :=
  (r.Description, r.Input, r.Output, r.Status)

/-- The files of scenario B: scenario A in `notes.txt`, and in `tool.py` with
every line prefixed by `# `. -/
def scenarioFiles (element : GoString) : Option GoString :=
  if element = str "tool.py" then some (prefixLines (str "# ") scenarioA)
  else if element = str "notes.txt" then some scenarioA
  else none

/-! ## Labels, offsets and the order of the cases -/

/-- The label whose case assigns a field. -/
def labelOf : Field → GoString
  | Field.Status => labelStatus
  | Field.Input => labelInput
  | Field.Output => labelOutput
  | Field.Description => labelDescription

/-- The low bound of the slice that a case assigns. -/
def offsetOf : Field → Nat
  | Field.Status => 7
  | Field.Input => 6
  | Field.Output => 7
  | Field.Description => 12

/-- The place of a case in the switch. -/
def rank : Field → Nat
  | Field.Status => 0
  | Field.Input => 1
  | Field.Output => 2
  | Field.Description => 3

/-! ## The records of a list of files -/

/-- The text of a file on which block matching runs: what the extension step
leaves of the file data, empty data for a file that cannot be read. -/
def fileText (readFile : GoString → Option GoString) (element : GoString) : Option GoString :=
  normalize element ((readFile element).getD [])

/-- The records of a list of files: those of each file in the order of the
list, `none` when a file makes `GetMatches` panic. -/
def scanRecords (readFile : GoString → Option GoString) : List GoString → Option (List DNAFile)
  | [] => some []
  | element :: rest =>
    (fileText readFile element).bind fun text =>
      (scanRecords readFile rest).map fun recs => fileRecords element text ++ recs

/-- Two files for the examples: `first.go` with two blocks, `second.go` with
one; every other path cannot be read. -/
def twoFiles (element : GoString) : Option GoString :=
  if element = str "first.go" then some (tagged bodyOne ++ [nl] ++ tagged bodyTwo)
  else if element = str "second.go" then some scenarioA
  else none

/-! ## The editor and the panes -/

/-- The editor process: what `cmd.Run()` and `cmd.Wait()` return for the
command `vim path`, `none` for `nil`. -/
structure Editor where
  Run : GoString → Option GoError
  Wait : GoString → Option GoError

/-- The function `OpenInEditor`: the state after the call, the path given to
`exec.Command("vim", path)` and the returned error, or `none` when
`matches[viewIndex]` panics. -/
def OpenInEditor {G : Type} (editor : Editor) (st : Viewer G) :
    Option (Viewer G × GoString × Option GoError) :=
  (index st.ms st.viewIndex).map fun m =>
    let path := m.Location
    match editor.Run path with
    | some err => (st, path, some err)
    | none =>
      match editor.Wait path with
      | some err => (st, path, some err)
      | none => (st, path, none)

/-- An editor that ends with an error. -/
def failingEditor : Editor where
  Run := fun _ => some (GoError.other 1)
  Wait := fun _ => none

/-- A terminal in which no content pane can be made: `SetView` answers an
error that is not `ErrUnknownView`. -/
def brokenTerminal : Gocui Unit where
  Size := fun _ => (80, 24)
  SetView := fun _ _ _ _ _ _ => ((), some (GoError.other 1))
  Fprintf := fun _ _ _ => ()
  SetViewOnTop := fun _ _ => ((), none)
  SetCurrentView := fun _ _ => ((), none)
  DeleteView := fun _ _ => ((), none)

/-- The views of `gocui` as the terminal state, by name: `SetView` refuses
empty rectangles, keeps a view that exists and makes a new one with
`ErrUnknownView`; `SetViewOnTop` moves a view to the end of the list;
`SetCurrentView` and `DeleteView` answer `ErrUnknownView` for a name without
view. -/
def viewList : Gocui (List GoString) where
  Size := fun _ => (80, 24)
  SetView := fun views name x0 y0 x1 y1 =>
    if x0 ≥ x1 ∨ y0 ≥ y1 ∨ name = [] then (views, some (GoError.other 0))
    else if name ∈ views then (views, none)
    else (views ++ [name], some GoError.ErrUnknownView)
  Fprintf := fun views _ _ => views
  SetViewOnTop := fun views name =>
    if name ∈ views then (views.filter (fun v => decide (v ≠ name)) ++ [name], none)
    else (views, some GoError.ErrUnknownView)
  SetCurrentView := fun views name =>
    if name ∈ views then (views, none) else (views, some GoError.ErrUnknownView)
  DeleteView := fun views name =>
    if name ∈ views then (views.filter (fun v => decide (v ≠ name)), none)
    else (views, some GoError.ErrUnknownView)

/-- The index and the views after `Layout` on an empty terminal and a
sequence of navigation keys. -/
def panesAfter (ms : List DNAFile) (moves : List Move) : Option (Int × List GoString) :=
  ((Layout viewList ⟨ms, 0, []⟩).bind fun r => runMoves viewList r.1 moves).map
    fun st => (st.viewIndex, st.g)

/-! ## Blocks given by their lines -/

/-- The lines of a body, each with its line feed. -/
def linesBody : List GoString → GoString
  | [] => []
  | l :: ls => l ++ nl :: linesBody ls

/-- The block with the given lines between the `@@DNA` line and the `@@END`
line. -/
def blockOf (lines : List GoString) : GoString :=
  joinLines (startMarker :: lines ++ [endMarker])

/-- The case of the field `f` is taken on the line. -/
def assigns (f : Field) (line : GoString) : Bool :=
  decide ((lineCase line).map Prod.fst = some f)

/-- The field lines of scenario A. -/
def scenarioLines : List GoString :=
  [str "Description: adds two numbers", str "Input: a, b", str "Output: sum",
    str "Status: Done"]

/-! ## Files whose comment markers change the blocks -/

/-- The body of a block whose description is a `#`. -/
def bodyHash : GoString := [nl] ++ str "Description: #" ++ [nl]

/-- A content without `@@END` in which `//` stands inside the end marker. -/
def slashInEndMarker : GoString :=
  startMarker ++ [nl] ++ str "Description: x" ++ [nl] ++ str "@//@END"

/-! ## Substring search -/

theorem Contains_iff_IsInfix (s sub : GoString) : Contains s sub = true ↔ sub <:+: s := by
  induction s with
  | nil =>
    simp [Contains, List.isPrefixOf_iff_prefix]
  | cons c t ih =>
    simp only [Contains, Bool.or_eq_true, ih, List.isPrefixOf_iff_prefix, List.infix_cons_iff]

theorem Contains_length {s sub : GoString} (h : Contains s sub = true) :
    sub.length ≤ s.length :=
  ((Contains_iff_IsInfix s sub).1 h).length_le

theorem Contains_false_of_IsInfix {s t sub : GoString} (hst : s <:+: t)
    (h : Contains t sub = false) : Contains s sub = false := by
  cases hc : Contains s sub with
  | false => rfl
  | true =>
    have : Contains t sub = true :=
      (Contains_iff_IsInfix t sub).2 (((Contains_iff_IsInfix s sub).1 hc).trans hst)
    rw [h] at this
    cases this

theorem cut_eq_some {s sep a b : GoString} (h : cut s sep = some (a, b)) :
    s = a ++ sep ++ b := by
  induction s generalizing a with
  | nil =>
    cases sep with
    | nil => simp [cut] at h; simp [h]
    | cons x xs => simp [cut] at h
  | cons c t ih =>
    simp only [cut] at h
    split at h
    · rename_i hp
      simp only [Option.some.injEq, Prod.mk.injEq] at h
      obtain ⟨rfl, rfl⟩ := h
      obtain ⟨r, hr⟩ := List.isPrefixOf_iff_prefix.1 hp
      rw [← hr]
      simp
    · cases hc : cut t sep with
      | none => simp [hc] at h
      | some r =>
        obtain ⟨r1, r2⟩ := r
        simp only [hc, Option.map_some', Option.some.injEq, Prod.mk.injEq] at h
        obtain ⟨rfl, rfl⟩ := h
        rw [ih hc]
        simp

theorem cut_append_left (sep rest : GoString) : cut (sep ++ rest) sep = some ([], rest) := by
  cases h : sep ++ rest with
  | nil =>
    simp only [List.append_eq_nil] at h
    simp [cut, h.1, h.2]
  | cons c t =>
    have hp : sep.isPrefixOf (c :: t) = true := by
      rw [← h]; exact List.isPrefixOf_iff_prefix.2 (List.prefix_append _ _)
    simp only [cut, hp, if_true]
    rw [← h]
    simp

theorem cut_none_of_not_contains {s sep : GoString} (h : Contains s sep = false) :
    cut s sep = none := by
  induction s with
  | nil =>
    simp only [Contains] at h
    simp [cut, h]
  | cons c t ih =>
    simp only [Contains, Bool.or_eq_false_iff] at h
    simp [cut, h.1, ih h.2]

theorem cut_cons_of_not_IsPrefix {sep t : GoString} {c : Nat}
    (h : sep.isPrefixOf (c :: t) = false) :
    cut (c :: t) sep = (cut t sep).map (fun r => (c :: r.1, r.2)) := by
  rw [cut, h]
  simp

theorem prefix_append_cons_cases {sep a b : GoString} {c : Nat}
    (h : sep <+: a ++ c :: b) : sep <+: a ∨ c ∈ sep := by
  induction a generalizing sep with
  | nil =>
    rcases List.prefix_cons_iff.1 h with rfl | ⟨t, rfl, _⟩
    · exact Or.inl (List.nil_prefix)
    · exact Or.inr (List.mem_cons_self _ _)
  | cons x a ih =>
    rcases List.prefix_cons_iff.1 h with rfl | ⟨t, rfl, ht⟩
    · exact Or.inl (List.nil_prefix)
    · rcases ih ht with h1 | h1
      · exact Or.inl ((List.prefix_cons_inj x).2 h1)
      · exact Or.inr (List.mem_cons_of_mem _ h1)

/-- An occurrence of `sep` cannot lie across a byte that `sep` does not have. -/
theorem cut_append_cons {sep a : GoString} (b : GoString) {c : Nat} (hc : c ∉ sep)
    (ha : Contains a sep = false) :
    cut (a ++ c :: b) sep = (cut b sep).map (fun r => (a ++ c :: r.1, r.2)) := by
  induction a with
  | nil =>
    have hp : sep.isPrefixOf (c :: b) = false := by
      cases hq : sep.isPrefixOf (c :: b) with
      | false => rfl
      | true =>
        rcases prefix_append_cons_cases (a := []) (List.isPrefixOf_iff_prefix.1 hq) with h1 | h1
        · have : Contains [] sep = true := (Contains_iff_IsInfix _ _).2 h1.isInfix
          rw [ha] at this; cases this
        · exact absurd h1 hc
    rw [List.nil_append, cut_cons_of_not_IsPrefix hp]
    rfl
  | cons x a ih =>
    simp only [Contains, Bool.or_eq_false_iff] at ha
    have hp : sep.isPrefixOf (x :: (a ++ c :: b)) = false := by
      cases hq : sep.isPrefixOf (x :: (a ++ c :: b)) with
      | false => rfl
      | true =>
        rcases prefix_append_cons_cases (a := x :: a) (List.isPrefixOf_iff_prefix.1 hq)
          with h1 | h1
        · have := List.isPrefixOf_iff_prefix.2 h1
          rw [ha.1] at this; cases this
        · exact absurd h1 hc
    rw [List.cons_append, cut_cons_of_not_IsPrefix hp, ih ha.2, Option.map_map]
    rfl

theorem cut_isSome_of_contains {s sep : GoString} (h : Contains s sep = true) :
    (cut s sep).isSome = true := by
  induction s with
  | nil =>
    simp only [Contains] at h
    simp [cut, h]
  | cons c t ih =>
    cases hp : sep.isPrefixOf (c :: t) with
    | true => rw [cut, hp]; simp
    | false =>
      simp only [Contains, hp, Bool.false_or] at h
      rw [cut_cons_of_not_IsPrefix hp]
      simpa using ih h

theorem Contains_append_cons {sep a b : GoString} {c : Nat} (hc : c ∉ sep)
    (ha : Contains a sep = false) (hb : Contains b sep = false) :
    Contains (a ++ c :: b) sep = false := by
  cases h : Contains (a ++ c :: b) sep with
  | false => rfl
  | true =>
    have h1 := cut_append_cons b hc ha
    rw [cut_none_of_not_contains hb] at h1
    have h2 := cut_isSome_of_contains h
    rw [h1] at h2
    cases h2

/-! ## Block matching -/

theorem startMarker_eq : startMarker = [64, 64, 68, 78, 65] := by decide

theorem endMarker_eq : endMarker = [64, 64, 69, 78, 68] := by decide

theorem cut_length_lt {s sep a b : GoString} (hsep : sep ≠ [])
    (h : cut s sep = some (a, b)) : b.length < s.length := by
  have hs := cut_eq_some h
  have : 0 < sep.length := List.length_pos.2 hsep
  rw [hs]
  simp only [List.length_append]
  omega

theorem findBlocksFuel_nil (fuel : Nat) : findBlocksFuel fuel [] = [] := by
  cases fuel with
  | zero => rfl
  | succ n => simp [findBlocksFuel, cut, startMarker_eq]

/-- Fuel beyond the length of the text changes nothing. -/
theorem findBlocksFuel_stable (n m : Nat) (s : GoString) (hn : s.length ≤ n)
    (hm : s.length ≤ m) : findBlocksFuel n s = findBlocksFuel m s := by
  induction n generalizing m s with
  | zero =>
    have : s = [] := List.length_eq_zero.1 (Nat.le_zero.1 hn)
    subst this
    rw [findBlocksFuel_nil, findBlocksFuel_nil]
  | succ n ih =>
    cases m with
    | zero =>
      have : s = [] := List.length_eq_zero.1 (Nat.le_zero.1 hm)
      subst this
      rw [findBlocksFuel_nil, findBlocksFuel_nil]
    | succ m =>
      simp only [findBlocksFuel]
      cases h1 : cut s startMarker with
      | none => rfl
      | some r1 =>
        obtain ⟨pre, afterStart⟩ := r1
        have l1 := cut_length_lt (by decide) h1
        cases h2 : cut afterStart endMarker with
        | none => simp only [h2]
        | some r2 =>
          obtain ⟨body, rest⟩ := r2
          have l2 := cut_length_lt (by decide) h2
          simp only [h2]
          rw [ih m rest (by omega) (by omega)]

theorem findBlocks_eq_fuel {n : Nat} {s : GoString} (hn : s.length ≤ n) :
    findBlocks s = findBlocksFuel n s :=
  findBlocksFuel_stable _ _ s (le_refl _) hn

/-- The unfolding of block matching: the first match and the matches behind it. -/
theorem findBlocks_unfold (s : GoString) :
    findBlocks s =
      match cut s startMarker with
      | none => []
      | some (_, afterStart) =>
        match cut afterStart endMarker with
        | none => []
        | some (body, rest) => (startMarker ++ body ++ endMarker) :: findBlocks rest := by
  rw [findBlocks_eq_fuel (Nat.le_succ s.length)]
  simp only [findBlocksFuel]
  cases h1 : cut s startMarker with
  | none => rfl
  | some r1 =>
    obtain ⟨pre, afterStart⟩ := r1
    have l1 := cut_length_lt (by decide) h1
    cases h2 : cut afterStart endMarker with
    | none => simp only [h2]
    | some r2 =>
      obtain ⟨body, rest⟩ := r2
      have l2 := cut_length_lt (by decide) h2
      simp only [h2]
      rw [findBlocks_eq_fuel (show rest.length ≤ s.length by omega)]

/-- The first occurrence of `sep` in `body ++ sep ++ rest` is the one written,
when `sep` does not occur earlier. -/
theorem cut_first {sep body : GoString} (rest : GoString)
    (h : Contains (body ++ sep.dropLast) sep = false) :
    cut (body ++ sep ++ rest) sep = some (body, rest) := by
  induction body with
  | nil => rw [List.nil_append, cut_append_left]
  | cons x body ih =>
    have hp : sep.isPrefixOf (x :: (body ++ sep ++ rest)) = false := by
      cases hq : sep.isPrefixOf (x :: (body ++ sep ++ rest)) with
      | false => rfl
      | true =>
        have h1 : sep <+: (x :: body ++ sep.dropLast) ++ ([sep.getLast?.getD 0] ++ rest) ∨
            sep = [] := by
          cases hs : sep.getLast? with
          | none => exact Or.inr (List.getLast?_eq_none_iff.1 hs)
          | some z =>
            left
            have := List.isPrefixOf_iff_prefix.1 hq
            have he : sep = sep.dropLast ++ [z] := by
              have := List.dropLast_append_getLast? z (by simpa using hs)
              exact this.symm
            rw [Option.getD_some]
            rw [he] at this
            simp only [List.dropLast_concat] at *
            rw [he]
            simpa [List.append_assoc] using this
        rcases h1 with h1 | h1
        · have h2 : sep <+: x :: body ++ sep.dropLast := by
            refine List.prefix_of_prefix_length_le h1 (List.prefix_append _ _) ?_
            simp only [List.length_append, List.length_cons, List.length_dropLast]
            omega
          have := (Contains_iff_IsInfix _ _).2 h2.isInfix
          rw [h] at this; cases this
        · subst h1
          have : Contains (x :: body ++ ([] : GoString).dropLast) [] = true :=
            (Contains_iff_IsInfix _ _).2 (List.nil_infix)
          rw [h] at this; cases this
    simp only [List.cons_append] at h ⊢
    rw [cut_cons_of_not_IsPrefix hp]
    simp only [Contains, Bool.or_eq_false_iff] at h
    rw [ih h.2]
    rfl

/-! ## White space -/

theorem trimFrom_nil (w : GoString → Nat) (k : Nat) : trimFrom w k [] = [] := by
  cases k <;> rfl

theorem trimFrom_suffix (w : GoString → Nat) (k : Nat) (s : GoString) :
    trimFrom w k s <:+ s := by
  induction s generalizing k with
  | nil => rw [trimFrom_nil]
  | cons c t ih =>
    cases k with
    | succ k => exact (ih k).trans (List.suffix_cons _ _)
    | zero =>
      rw [trimFrom]
      split
      · exact List.suffix_refl _
      · exact (ih _).trans (List.suffix_cons _ _)

theorem trimFrom_of_width_zero {w : GoString → Nat} {s : GoString} (h : w s = 0) :
    trimFrom w 0 s = s := by
  cases s with
  | nil => rfl
  | cons c t => rw [trimFrom]; simp [h]

theorem width_zero_of_trimFrom {w : GoString → Nat} {s : GoString} (hs : s ≠ [])
    (h : trimFrom w 0 s = s) : w s = 0 := by
  cases s with
  | nil => exact absurd rfl hs
  | cons c t =>
    cases hw : w (c :: t) with
    | zero => rfl
    | succ n =>
      rw [trimFrom] at h
      simp only [hw] at h
      have := (trimFrom_suffix w n t).length_le
      rw [h] at this
      simp at this

theorem trimLeft_suffix (s : GoString) : trimLeft s <:+ s := trimFrom_suffix _ _ _

theorem trimRight_IsPrefix (s : GoString) : trimRight s <+: s := by
  have := trimFrom_suffix lastSpaceWidth 0 s.reverse
  rw [← List.reverse_prefix, List.reverse_reverse] at this
  exact this

theorem TrimSpace_IsInfix (s : GoString) : TrimSpace s <:+: s :=
  (trimRight_IsPrefix _).isInfix.trans (trimLeft_suffix s).isInfix

/-- A text that `TrimSpace` leaves alone starts and ends with no white space. -/
theorem widths_of_TrimSpace_eq {d : GoString} (hd : d ≠ []) (h : TrimSpace d = d) :
    spaceWidth d = 0 ∧ lastSpaceWidth d.reverse = 0 := by
  have h1 := (trimRight_IsPrefix (trimLeft d)).length_le
  have h2 := trimLeft_suffix d
  have h3 : trimLeft d = d := by
    apply h2.eq_of_length_le
    unfold TrimSpace at h
    rw [h] at h1
    exact h1
  have h4 : trimRight d = d := by
    unfold TrimSpace at h
    rw [h3] at h
    exact h
  refine ⟨width_zero_of_trimFrom hd h3, ?_⟩
  apply width_zero_of_trimFrom (by simpa using hd)
  unfold trimRight at h4
  have := congrArg List.reverse h4
  rw [List.reverse_reverse] at this
  exact this

theorem TrimSpace_eq_of_widths {d : GoString} (h1 : spaceWidth d = 0)
    (h2 : lastSpaceWidth d.reverse = 0) : TrimSpace d = d := by
  unfold TrimSpace trimLeft trimRight
  rw [trimFrom_of_width_zero h1, trimFrom_of_width_zero h2, List.reverse_reverse]

theorem isSpace2_of_lt {a : Nat} (b : Nat) (h : a < 128) : isSpace2 a b = false := by
  have : a ≠ 0xC2 := by omega
  simp [isSpace2, this]

theorem isSpace3_of_lt {a : Nat} (b c : Nat) (h : a < 128) : isSpace3 a b c = false := by
  have h1 : a ≠ 0xE1 := by omega
  have h2 : a ≠ 0xE2 := by omega
  have h3 : a ≠ 0xE3 := by omega
  simp [isSpace3, h1, h2, h3]

/-- ASCII text put in front of a text does not give the text a white-space end. -/
theorem lastSpaceWidth_append {r : GoString} (L : GoString) (hr : r ≠ [])
    (h : lastSpaceWidth r = 0) (hL : ∀ b ∈ L, b < 128) : lastSpaceWidth (r ++ L) = 0 := by
  match r, hr, h with
  | [z], _, h =>
    match L, hL with
    | [], _ => simpa using h
    | [y], hL =>
      have hy : y < 128 := hL y (by simp)
      simp only [lastSpaceWidth] at h ⊢
      simp only [List.singleton_append, lastSpaceWidth, isSpace2_of_lt z hy]
      simpa using h
    | y :: x :: L, hL =>
      have hy : y < 128 := hL y (by simp)
      have hx : x < 128 := hL x (by simp)
      simp only [lastSpaceWidth] at h
      simp only [List.singleton_append, lastSpaceWidth, isSpace2_of_lt z hy,
        isSpace3_of_lt y z hx]
      simpa using h
  | [z, y], _, h =>
    match L, hL with
    | [], _ => simpa using h
    | x :: L, hL =>
      have hx : x < 128 := hL x (by simp)
      simp only [lastSpaceWidth] at h
      simp only [List.cons_append, List.nil_append, lastSpaceWidth, isSpace3_of_lt y z hx]
      simpa using h
  | z :: y :: x :: r, _, h =>
    simp only [lastSpaceWidth] at h
    simp only [List.cons_append, lastSpaceWidth]
    exact h

/-! ## Field parsing -/

theorem sliceFrom_of_le {m : GoString} {k : Nat} (h : k ≤ m.length) :
    sliceFrom m (k : Int) = some (m.drop k) := by
  unfold sliceFrom
  rw [if_pos ⟨Int.ofNat_nonneg k, Int.ofNat_le.2 h⟩]
  rfl

theorem labelStatus_eq : labelStatus = [83, 116, 97, 116, 117, 115, 58, 32] := by decide

theorem labelInput_eq : labelInput = [73, 110, 112, 117, 116, 58, 32] := by decide

theorem labelOutput_eq : labelOutput = [79, 117, 116, 112, 117, 116, 58, 32] := by decide

theorem labelDescription_eq :
    labelDescription = [68, 101, 115, 99, 114, 105, 112, 116, 105, 111, 110, 58, 32] := by
  decide

/-- The slices of the field parser are in range: `parseLine` never panics. -/
theorem parseLine_eq (tmpDNA : DNAFile) (line : GoString) :
    parseLine tmpDNA line = some (lineField tmpDNA line) := by
  unfold parseLine lineField
  simp only
  split
  · rfl
  · split
    · rename_i h
      have := Contains_length h
      rw [labelStatus_eq] at this
      rw [show (7 : Int) = ((7 : Nat) : Int) from rfl,
        sliceFrom_of_le (by simp only [List.length_cons, List.length_nil] at this; omega)]
      rfl
    · split
      · rename_i h
        have := Contains_length h
        rw [labelInput_eq] at this
        rw [show (6 : Int) = ((6 : Nat) : Int) from rfl,
          sliceFrom_of_le (by simp only [List.length_cons, List.length_nil] at this; omega)]
        rfl
      · split
        · rename_i h
          have := Contains_length h
          rw [labelOutput_eq] at this
          rw [show (7 : Int) = ((7 : Nat) : Int) from rfl,
            sliceFrom_of_le (by simp only [List.length_cons, List.length_nil] at this; omega)]
          rfl
        · split
          · rename_i h
            have := Contains_length h
            rw [labelDescription_eq] at this
            rw [show (12 : Int) = ((12 : Nat) : Int) from rfl,
              sliceFrom_of_le (by simp only [List.length_cons, List.length_nil] at this; omega)]
            rfl
          · rfl

theorem parseLines_eq (tmpDNA : DNAFile) (lines : List GoString) :
    parseLines tmpDNA lines = some (lines.foldl lineField tmpDNA) := by
  induction lines generalizing tmpDNA with
  | nil => rfl
  | cons l ls ih => simp only [parseLines, parseLine_eq, Option.some_bind, ih, List.foldl_cons]

theorem blockRecord_eq (element block : GoString) :
    blockRecord element block = some (blockFields element block) := by
  simp only [blockRecord, parseLines_eq, Option.map_some', blockFields]

theorem lineField_nil (tmpDNA : DNAFile) : lineField tmpDNA [] = tmpDNA := by
  have h : TrimSpace [] = [] := by decide
  unfold lineField
  simp only [h]
  have h1 : Contains [] labelStatus = false := by decide
  have h2 : Contains [] labelInput = false := by decide
  have h3 : Contains [] labelOutput = false := by decide
  have h4 : Contains [] labelDescription = false := by decide
  simp [h1, h2, h3, h4]

theorem processMatch_eq (element : GoString) (ms : List DNAFile) (block : GoString) :
    processMatch element ms block = some (ms ++ keptRecords element [block]) := by
  unfold processMatch
  by_cases hb : block.length ≠ 0
  · rw [if_pos hb, blockRecord_eq]
    by_cases hd : (blockFields element block).Description ≠ []
    · simp [keptRecords, hd]
    · simp [keptRecords, hd]
  · rw [if_neg hb]
    have : block = [] := List.length_eq_zero.1 (not_not.1 hb)
    subst this
    have : (blockFields element []).Description = [] := by
      simp only [blockFields, splitLines, List.foldl_cons, List.foldl_nil, lineField_nil]
    simp [keptRecords, this]

theorem keptRecords_cons (element block : GoString) (blocks : List GoString) :
    keptRecords element (block :: blocks) =
      keptRecords element [block] ++ keptRecords element blocks := by
  simp only [keptRecords, List.map_cons, List.map_nil]
  rw [← List.filter_append]
  rfl

theorem processMatches_eq (element : GoString) (ms : List DNAFile) (blocks : List GoString) :
    processMatches element ms blocks = some (ms ++ keptRecords element blocks) := by
  induction blocks generalizing ms with
  | nil => simp [processMatches, keptRecords]
  | cons b bs ih =>
    rw [processMatches, processMatch_eq, Option.some_bind, ih, keptRecords_cons element b bs,
      List.append_assoc]

/-- Block matching and field parsing never panic; the store grows by the
records of the file. -/
theorem extractBlocks_eq (element text : GoString) (ms : List DNAFile) :
    extractBlocks element text ms = some (ms ++ fileRecords element text) :=
  processMatches_eq element ms (findBlocks text)

theorem scanFile_eq {readFile : GoString → Option GoString} {element text : GoString}
    (ms : List DNAFile) (h : normalize element ((readFile element).getD []) = some text) :
    scanFile readFile ms element = some (ms ++ fileRecords element text) := by
  simp only [scanFile, h, Option.some_bind, extractBlocks_eq]

theorem scanFile_some {readFile : GoString → Option GoString} {element : GoString}
    {ms ms1 : List DNAFile} (h : scanFile readFile ms element = some ms1) :
    ∃ text, normalize element ((readFile element).getD []) = some text ∧
      ms1 = ms ++ fileRecords element text := by
  cases hn : normalize element ((readFile element).getD []) with
  | none => simp [scanFile, hn] at h
  | some text =>
    rw [scanFile_eq ms hn] at h
    exact ⟨text, rfl, (Option.some.inj h).symm⟩

/-- On a one-file list `GetMatches` is block matching and field parsing on
the text that the extension step leaves. -/
theorem GetMatches_single {readFile : GoString → Option GoString} {element data text : GoString}
    (ms : List DNAFile) (hr : readFile element = some data)
    (hn : normalize element data = some text) :
    GetMatches readFile [element] ms = extractBlocks element text ms := by
  have h : normalize element ((readFile element).getD []) = some text := by
    rw [hr]; exact hn
  rw [GetMatches, scanFile_eq ms h, extractBlocks_eq]
  rfl

theorem mem_keptRecords {element : GoString} {blocks : List GoString} {r : DNAFile}
    (h : r ∈ keptRecords element blocks) : r.Description ≠ [] := by
  simp only [keptRecords, List.mem_filter, decide_eq_true_eq] at h
  exact h.2

theorem GetMatches_appends {readFile : GoString → Option GoString} {files : List GoString}
    {ms ms1 : List DNAFile} (h : GetMatches readFile files ms = some ms1) :
    ∃ new, ms1 = ms ++ new ∧ ∀ r ∈ new, r.Description ≠ [] := by
  induction files generalizing ms with
  | nil =>
    simp only [GetMatches, Option.some.injEq] at h
    exact ⟨[], by simp [h], by simp⟩
  | cons element rest ih =>
    rw [GetMatches] at h
    cases hs : scanFile readFile ms element with
    | none => simp [hs] at h
    | some ms2 =>
      rw [hs, Option.some_bind] at h
      obtain ⟨text, _, h2⟩ := scanFile_some hs
      obtain ⟨new, h3, h4⟩ := ih h
      refine ⟨fileRecords element text ++ new, by rw [h3, h2, List.append_assoc], ?_⟩
      intro r hr
      rcases List.mem_append.1 hr with hr | hr
      · exact mem_keptRecords hr
      · exact h4 r hr

theorem lineField_Description_of_not_contains {tmpDNA : DNAFile} {line : GoString}
    (h : Contains line labelDescription = false) :
    (lineField tmpDNA line).Description = tmpDNA.Description := by
  have h1 := Contains_false_of_IsInfix (TrimSpace_IsInfix line) h
  unfold lineField
  simp only [h1, Bool.false_eq_true, if_false]
  split_ifs <;> rfl

theorem foldl_lineField_Description {lines : List GoString} (tmpDNA : DNAFile)
    (h : ∀ line ∈ lines, Contains line labelDescription = false) :
    (lines.foldl lineField tmpDNA).Description = tmpDNA.Description := by
  induction lines generalizing tmpDNA with
  | nil => rfl
  | cons l ls ih =>
    rw [List.foldl_cons, ih _ (fun x hx => h x (List.mem_cons_of_mem _ hx)),
      lineField_Description_of_not_contains (h l (List.mem_cons_self _ _))]

/-- Claim C2: every record that `GetMatches` appends to the match store has a
non-empty `Description`, and a block none of whose lines contains
`Description: ` leaves the match store as it was. -/
theorem GetMatches_description_nonempty (readFile : GoString → Option GoString)
    (files : List GoString) (ms ms1 : List DNAFile) (element block : GoString)
    (store : List DNAFile)
    (h : GetMatches readFile files ms = some ms1)
    (hb : ∀ line ∈ splitLines block, Contains line labelDescription = false) :
    (∃ new, ms1 = ms ++ new ∧ ∀ r ∈ new, r.Description ≠ []) ∧
      processMatch element store block = some store := by
  refine ⟨GetMatches_appends h, ?_⟩
  rw [processMatch_eq]
  have : (blockFields element block).Description = [] := by
    simp only [blockFields]
    exact foldl_lineField_Description _ hb
  simp [keptRecords, this]

theorem GetMatches_description_nonempty_witness :
    (∃ new, [({ Location := str "main.go", Description := str " adds" } : DNAFile)] = [] ++ new ∧
        ∀ r ∈ new, r.Description ≠ []) ∧
      processMatch (str "main.go") [] blockWithoutDescription = some [] :=
  GetMatches_description_nonempty
    (fun _ => some (startMarker ++ [nl] ++ str "Description: adds" ++ [nl] ++ endMarker))
    [str "main.go"] [] _ (str "main.go") blockWithoutDescription []
    (by decide) (by decide)

/-! ## Lines -/

theorem splitLines_of_not_mem {l : GoString} (h : nl ∉ l) : splitLines l = [l] := by
  induction l with
  | nil => rfl
  | cons c t ih =>
    simp only [List.mem_cons, not_or] at h
    rw [splitLines, if_neg (fun e => h.1 e.symm), ih h.2]

theorem splitLines_append_nl {l : GoString} (rest : GoString) (h : nl ∉ l) :
    splitLines (l ++ nl :: rest) = l :: splitLines rest := by
  induction l with
  | nil => simp [splitLines]
  | cons c t ih =>
    simp only [List.mem_cons, not_or] at h
    rw [List.cons_append, splitLines, if_neg (fun e => h.1 e.symm), ih h.2]

theorem splitLines_joinLines {ls : List GoString} (hne : ls ≠ [])
    (h : ∀ l ∈ ls, nl ∉ l) : splitLines (joinLines ls) = ls := by
  induction ls with
  | nil => exact absurd rfl hne
  | cons l ls ih =>
    cases ls with
    | nil => exact splitLines_of_not_mem (h l (List.mem_cons_self _ _))
    | cons l2 ls =>
      have e : joinLines (l :: l2 :: ls) = l ++ nl :: joinLines (l2 :: ls) := rfl
      rw [e, splitLines_append_nl _ (h l (List.mem_cons_self _ _)),
        ih (by simp) (fun x hx => h x (List.mem_cons_of_mem _ hx))]

/-! ## Label lines -/

theorem Contains_append_of_head_not_mem {L d ps : GoString} {p : Nat} (hp : p ∉ L)
    (hd : Contains d (p :: ps) = false) : Contains (L ++ d) (p :: ps) = false := by
  induction L with
  | nil => exact hd
  | cons x L ih =>
    simp only [List.mem_cons, not_or] at hp
    rw [List.cons_append, Contains, ih hp.2, Bool.or_false, List.isPrefixOf]
    simp [hp.1]

theorem Contains_append_self (L d : GoString) : Contains (L ++ d) L = true :=
  (Contains_iff_IsInfix _ _).2 (List.prefix_append L d).isInfix

theorem TrimSpace_append_of_ascii {L d : GoString} (h0 : spaceWidth (L ++ d) = 0)
    (hL : ∀ b ∈ L, b < 128) (hd : d ≠ []) (hT : TrimSpace d = d) :
    TrimSpace (L ++ d) = L ++ d := by
  apply TrimSpace_eq_of_widths h0
  rw [List.reverse_append]
  exact lastSpaceWidth_append _ (by simpa using hd) (widths_of_TrimSpace_eq hd hT).2
    (by simpa using hL)

theorem TrimSpace_description_line {d : GoString} (hd : d ≠ []) (hT : TrimSpace d = d) :
    TrimSpace (labelDescription ++ d) = labelDescription ++ d := by
  apply TrimSpace_append_of_ascii _ (by decide) hd hT
  rw [labelDescription_eq]
  simp [spaceWidth, isAsciiSpace, isSpace2, isSpace3]

theorem TrimSpace_input_line {d : GoString} (hd : d ≠ []) (hT : TrimSpace d = d) :
    TrimSpace (labelInput ++ d) = labelInput ++ d := by
  apply TrimSpace_append_of_ascii _ (by decide) hd hT
  rw [labelInput_eq]
  simp [spaceWidth, isAsciiSpace, isSpace2, isSpace3]

theorem TrimSpace_output_line {d : GoString} (hd : d ≠ []) (hT : TrimSpace d = d) :
    TrimSpace (labelOutput ++ d) = labelOutput ++ d := by
  apply TrimSpace_append_of_ascii _ (by decide) hd hT
  rw [labelOutput_eq]
  simp [spaceWidth, isAsciiSpace, isSpace2, isSpace3]

theorem TrimSpace_status_line {d : GoString} (hd : d ≠ []) (hT : TrimSpace d = d) :
    TrimSpace (labelStatus ++ d) = labelStatus ++ d := by
  apply TrimSpace_append_of_ascii _ (by decide) hd hT
  rw [labelStatus_eq]
  simp [spaceWidth, isAsciiSpace, isSpace2, isSpace3]

theorem lineField_startMarker (t : DNAFile) : lineField t startMarker = t := by
  have h : TrimSpace startMarker = startMarker := by decide
  simp [lineField, h]

theorem lineField_endMarker (t : DNAFile) : lineField t endMarker = t := by
  have h : TrimSpace endMarker = endMarker := by decide
  simp [lineField, h]

theorem lineField_status_line (t : DNAFile) {x : GoString} (hx : fieldText x) :
    lineField t (labelStatus ++ x) = { t with Status := 32 :: x } := by
  obtain ⟨hne, _, hT, _, _, _, _⟩ := hx
  have h1 : labelStatus ++ x ≠ startMarker := by
    rw [labelStatus_eq, startMarker_eq]; simp
  have h2 : labelStatus ++ x ≠ endMarker := by
    rw [labelStatus_eq, endMarker_eq]; simp
  unfold lineField
  simp only [TrimSpace_status_line hne hT, h1, h2, or_self, if_false, Contains_append_self,
    if_true]
  rw [labelStatus_eq]
  rfl

theorem lineField_input_line (t : DNAFile) {x : GoString} (hx : fieldText x) :
    lineField t (labelInput ++ x) = { t with Input := 32 :: x } := by
  obtain ⟨hne, _, hT, hS, _, _, _⟩ := hx
  have h1 : labelInput ++ x ≠ startMarker := by
    rw [labelInput_eq, startMarker_eq]; simp
  have h2 : labelInput ++ x ≠ endMarker := by
    rw [labelInput_eq, endMarker_eq]; simp
  have c1 : Contains (labelInput ++ x) labelStatus = false := by
    rw [labelStatus_eq] at hS ⊢
    exact Contains_append_of_head_not_mem (by decide) hS
  unfold lineField
  simp only [TrimSpace_input_line hne hT, h1, h2, or_self, if_false, Contains_append_self,
    if_true, c1, Bool.false_eq_true]
  rw [labelInput_eq]
  rfl

theorem lineField_output_line (t : DNAFile) {x : GoString} (hx : fieldText x) :
    lineField t (labelOutput ++ x) = { t with Output := 32 :: x } := by
  obtain ⟨hne, _, hT, hS, hI, _, _⟩ := hx
  have h1 : labelOutput ++ x ≠ startMarker := by
    rw [labelOutput_eq, startMarker_eq]; simp
  have h2 : labelOutput ++ x ≠ endMarker := by
    rw [labelOutput_eq, endMarker_eq]; simp
  have c1 : Contains (labelOutput ++ x) labelStatus = false := by
    rw [labelStatus_eq] at hS ⊢
    exact Contains_append_of_head_not_mem (by decide) hS
  have c2 : Contains (labelOutput ++ x) labelInput = false := by
    rw [labelInput_eq] at hI ⊢
    exact Contains_append_of_head_not_mem (by decide) hI
  unfold lineField
  simp only [TrimSpace_output_line hne hT, h1, h2, or_self, if_false, Contains_append_self,
    if_true, c1, c2, Bool.false_eq_true]
  rw [labelOutput_eq]
  rfl

theorem lineField_description_line (t : DNAFile) {x : GoString} (hx : fieldText x) :
    lineField t (labelDescription ++ x) = { t with Description := 32 :: x } := by
  obtain ⟨hne, _, hT, hS, hI, hO, _⟩ := hx
  have h1 : labelDescription ++ x ≠ startMarker := by
    rw [labelDescription_eq, startMarker_eq]; simp
  have h2 : labelDescription ++ x ≠ endMarker := by
    rw [labelDescription_eq, endMarker_eq]; simp
  have c1 : Contains (labelDescription ++ x) labelStatus = false := by
    rw [labelStatus_eq] at hS ⊢
    exact Contains_append_of_head_not_mem (by decide) hS
  have c2 : Contains (labelDescription ++ x) labelInput = false := by
    rw [labelInput_eq] at hI ⊢
    exact Contains_append_of_head_not_mem (by decide) hI
  have c3 : Contains (labelDescription ++ x) labelOutput = false := by
    rw [labelOutput_eq] at hO ⊢
    exact Contains_append_of_head_not_mem (by decide) hO
  unfold lineField
  simp only [TrimSpace_description_line hne hT, h1, h2, or_self, if_false,
    Contains_append_self, if_true, c1, c2, c3, Bool.false_eq_true]
  rw [labelDescription_eq]
  rfl

/-! ## One block -/

/-- A text that is one start marker, a body without the end marker and the
end marker is matched whole. -/
theorem findBlocks_single {body : GoString}
    (h : Contains (body ++ endMarker.dropLast) endMarker = false) :
    findBlocks (startMarker ++ body ++ endMarker) = [startMarker ++ body ++ endMarker] := by
  rw [findBlocks_unfold]
  have e1 : startMarker ++ body ++ endMarker = startMarker ++ (body ++ endMarker ++ []) := by
    simp
  have e2 : findBlocks [] = [] := rfl
  have e3 := cut_first [] h
  rw [List.append_nil] at e3
  rw [e1, cut_append_left]
  simp only [List.append_nil, e3, e2, List.append_assoc]

theorem Contains_label_line {L x pat : GoString} (hsp : (32 : Nat) ∉ pat)
    (hL : Contains L.dropLast pat = false) (hlast : L.getLast? = some 32)
    (hx : Contains x pat = false) : Contains (L ++ x) pat = false := by
  have e : L = L.dropLast ++ [32] := (List.dropLast_append_getLast? 32 (by simpa using hlast)).symm
  rw [e, List.append_assoc, List.singleton_append]
  exact Contains_append_cons hsp hL hx

theorem sixLines_body {d i o s : GoString}
    (hd : Contains d endMarker = false) (hi : Contains i endMarker = false)
    (ho : Contains o endMarker = false) (hs : Contains s endMarker = false) :
    Contains
      ((nl :: (labelDescription ++ d) ++ nl :: (labelInput ++ i) ++ nl :: (labelOutput ++ o) ++
        nl :: (labelStatus ++ s) ++ [nl]) ++ endMarker.dropLast) endMarker = false := by
  have hnl : nl ∉ endMarker := by decide
  have hsp : (32 : Nat) ∉ endMarker := by decide
  have e : (nl :: (labelDescription ++ d) ++ nl :: (labelInput ++ i) ++
        nl :: (labelOutput ++ o) ++ nl :: (labelStatus ++ s) ++ [nl]) ++ endMarker.dropLast =
      [] ++ nl :: ((labelDescription ++ d) ++ nl :: ((labelInput ++ i) ++
        nl :: ((labelOutput ++ o) ++ nl :: ((labelStatus ++ s) ++ nl :: endMarker.dropLast)))) := by
    simp
  rw [e]
  refine Contains_append_cons hnl (by decide) ?_
  refine Contains_append_cons hnl (Contains_label_line hsp (by decide) (by decide) hd) ?_
  refine Contains_append_cons hnl (Contains_label_line hsp (by decide) (by decide) hi) ?_
  refine Contains_append_cons hnl (Contains_label_line hsp (by decide) (by decide) ho) ?_
  exact Contains_append_cons hnl (Contains_label_line hsp (by decide) (by decide) hs)
    (by decide)

theorem findBlocks_sixLines {d i o s : GoString}
    (hd : Contains d endMarker = false) (hi : Contains i endMarker = false)
    (ho : Contains o endMarker = false) (hs : Contains s endMarker = false) :
    findBlocks (sixLines d i o s) = [sixLines d i o s] := by
  have e : sixLines d i o s = startMarker ++
      (nl :: (labelDescription ++ d) ++ nl :: (labelInput ++ i) ++ nl :: (labelOutput ++ o) ++
        nl :: (labelStatus ++ s) ++ [nl]) ++ endMarker := by
    simp [sixLines, joinLines]
  rw [e]
  exact findBlocks_single (sixLines_body hd hi ho hs)

theorem splitLines_sixLines {d i o s : GoString} (hd : nl ∉ d) (hi : nl ∉ i) (ho : nl ∉ o)
    (hs : nl ∉ s) :
    splitLines (sixLines d i o s) =
      [startMarker, labelDescription ++ d, labelInput ++ i, labelOutput ++ o,
        labelStatus ++ s, endMarker] := by
  apply splitLines_joinLines (by simp)
  intro l hl
  simp only [List.mem_cons, List.mem_singleton, List.not_mem_nil, or_false] at hl
  have n1 : nl ∉ labelDescription := by decide
  have n2 : nl ∉ labelInput := by decide
  have n3 : nl ∉ labelOutput := by decide
  have n4 : nl ∉ labelStatus := by decide
  rcases hl with rfl | rfl | rfl | rfl | rfl | rfl
  · decide
  · simp [n1, hd]
  · simp [n2, hi]
  · simp [n3, ho]
  · simp [n4, hs]
  · decide

/-- Claim C1, amended: the six lines give one record, and each field is the
text of its line from the space that ends the label on; so does `GetMatches`
on a file for which the six lines are the text after the extension step. -/
theorem extractBlocks_sixLines (element d i o s : GoString) (ms : List DNAFile)
    (hd : fieldText d) (hi : fieldText i) (ho : fieldText o) (hs : fieldText s)
    (ed : Contains d endMarker = false) (ei : Contains i endMarker = false)
    (eo : Contains o endMarker = false) (es : Contains s endMarker = false) :
    extractBlocks element (sixLines d i o s) ms =
      some (ms ++ [{ Location := element, Description := 32 :: d, Input := 32 :: i,
                     Output := 32 :: o, Status := 32 :: s }]) ∧
    ∀ (readFile : GoString → Option GoString) (data : GoString),
      readFile element = some data → normalize element data = some (sixLines d i o s) →
      GetMatches readFile [element] ms =
        some (ms ++ [{ Location := element, Description := 32 :: d, Input := 32 :: i,
                       Output := 32 :: o, Status := 32 :: s }]) := by
  have hb : blockFields element (sixLines d i o s) =
      { Location := element, Description := 32 :: d, Input := 32 :: i,
        Output := 32 :: o, Status := 32 :: s } := by
    rw [blockFields, splitLines_sixLines hd.2.1 hi.2.1 ho.2.1 hs.2.1]
    simp only [List.foldl_cons, List.foldl_nil, lineField_startMarker, lineField_endMarker,
      lineField_description_line _ hd, lineField_input_line _ hi, lineField_output_line _ ho,
      lineField_status_line _ hs]
  have he : extractBlocks element (sixLines d i o s) ms =
      some (ms ++ [{ Location := element, Description := 32 :: d, Input := 32 :: i,
                     Output := 32 :: o, Status := 32 :: s }]) := by
    rw [extractBlocks_eq, fileRecords, findBlocks_sixLines ed ei eo es]
    simp [keptRecords, hb]
  exact ⟨he, fun readFile data hr hn => by rw [GetMatches_single ms hr hn, he]⟩

theorem extractBlocks_sixLines_witness :
    extractBlocks (str "main.go") scenarioA [] =
      some ([] ++ [{ Location := str "main.go", Description := 32 :: str "adds two numbers",
                     Input := 32 :: str "a, b", Output := 32 :: str "sum",
                     Status := 32 :: str "Done" }]) ∧
    ∀ (readFile : GoString → Option GoString) (data : GoString),
      readFile (str "main.go") = some data → normalize (str "main.go") data = some scenarioA →
      GetMatches readFile [str "main.go"] [] =
        some ([] ++ [{ Location := str "main.go",
                       Description := 32 :: str "adds two numbers",
                       Input := 32 :: str "a, b", Output := 32 :: str "sum",
                       Status := 32 :: str "Done" }]) :=
  extractBlocks_sixLines (str "main.go") (str "adds two numbers") (str "a, b") (str "sum")
    (str "Done") []
    (by unfold fieldText; decide) (by unfold fieldText; decide) (by unfold fieldText; decide)
    (by unfold fieldText; decide) (by decide) (by decide) (by decide) (by decide)

/-- Claim C1 as stated fails on scenario A, whose record keeps the space
after each label, and on a description that mentions the end marker, which
ends the block there. -/
theorem scenarioA_fields_not_as_claimed :
    (¬ ∃ r : DNAFile,
        GetMatches (fun _ => some scenarioA) [str "main.go"] [] = some ([] ++ [r]) ∧
        r.Description = str "adds two numbers" ∧ r.Input = str "a, b" ∧
        r.Output = str "sum" ∧ r.Status = str "Done") ∧
    (¬ ∃ r : DNAFile,
        GetMatches (fun _ => some scenarioEndInside) [str "main.go"] [] = some ([] ++ [r]) ∧
        (r.Description = str "stops at @@END here" ∨
          r.Description = 32 :: str "stops at @@END here")) := by
  have h1 : GetMatches (fun _ => some scenarioA) [str "main.go"] [] =
      some [{ Location := str "main.go", Description := str " adds two numbers",
              Input := str " a, b", Output := str " sum", Status := str " Done" }] := by
    decide
  have h2 : GetMatches (fun _ => some scenarioEndInside) [str "main.go"] [] =
      some [{ Location := str "main.go", Description := str " stops at @@END" }] := by
    decide
  constructor
  · rintro ⟨r, hr, hdesc, _⟩
    rw [h1] at hr
    simp only [List.nil_append, Option.some.injEq, List.cons.injEq, and_true] at hr
    subst hr
    revert hdesc
    decide
  · rintro ⟨r, hr, hdesc⟩
    rw [h2] at hr
    simp only [List.nil_append, Option.some.injEq, List.cons.injEq, and_true] at hr
    subst hr
    revert hdesc
    decide

/-! ## Several blocks -/

theorem Contains_concat_of_ne_last {X pat : GoString} {a z : Nat}
    (hz : pat.getLast? = some z) (ha : a ≠ z) (hX : Contains X pat = false) :
    Contains (X ++ [a]) pat = false := by
  cases h : Contains (X ++ [a]) pat with
  | false => rfl
  | true =>
    exfalso
    rcases List.infix_concat_iff.1 ((Contains_iff_IsInfix _ _).1 h) with h1 | h1
    · rcases List.suffix_concat_iff.1 h1 with h2 | ⟨t, h2, _⟩
      · subst h2; simp at hz
      · rw [h2] at hz
        rw [List.getLast?_append, List.getLast?_singleton] at hz
        exact ha (Option.some.inj hz)
    · have := (Contains_iff_IsInfix _ _).2 h1
      rw [hX] at this; cases this

/-- A start marker cannot begin in a text without one and end in the start
marker that follows. -/
theorem Contains_append_startMarker_dropLast {pre : GoString}
    (h : Contains pre startMarker = false) :
    Contains (pre ++ startMarker.dropLast) startMarker = false := by
  have hz : startMarker.getLast? = some 65 := by decide
  have e : pre ++ startMarker.dropLast = pre ++ [64] ++ [64] ++ [68] ++ [78] := by
    rw [startMarker_eq]; simp
  rw [e]
  exact Contains_concat_of_ne_last hz (by decide)
    (Contains_concat_of_ne_last hz (by decide)
      (Contains_concat_of_ne_last hz (by decide)
        (Contains_concat_of_ne_last hz (by decide) h)))

/-- The first match of a text: the block behind a text without start marker,
when the block has a body without end marker. -/
theorem findBlocks_cons {pre body : GoString} (rest : GoString)
    (hpre : Contains pre startMarker = false)
    (hbody : Contains (body ++ endMarker.dropLast) endMarker = false) :
    findBlocks (pre ++ tagged body ++ rest) = tagged body :: findBlocks rest := by
  rw [findBlocks_unfold]
  have e1 : pre ++ tagged body ++ rest = pre ++ startMarker ++ (body ++ endMarker ++ rest) := by
    simp [tagged]
  rw [e1, cut_first _ (Contains_append_startMarker_dropLast hpre)]
  simp only [cut_first rest hbody, tagged]

theorem findBlocks_of_not_contains {s : GoString} (h : Contains s startMarker = false) :
    findBlocks s = [] := by
  rw [findBlocks_unfold, cut_none_of_not_contains h]

theorem body_of_tagged_dropLast {body : GoString}
    (h : Contains (tagged body).dropLast endMarker = false) :
    Contains (body ++ endMarker.dropLast) endMarker = false := by
  refine Contains_false_of_IsInfix ?_ h
  have e : (tagged body).dropLast = startMarker ++ (body ++ endMarker.dropLast) := by
    rw [tagged, List.dropLast_append_of_ne_nil _ (by decide), List.append_assoc]
  rw [e]
  exact (List.suffix_append _ _).isInfix

theorem lineField_Description_ne (t : DNAFile) (line : GoString)
    (h : t.Description ≠ [] ∨ isDescriptionLine line = true) :
    (lineField t line).Description ≠ [] := by
  unfold lineField
  simp only
  split_ifs with h1 h2 h3 h4 h5
  · rcases h with h | h
    · exact h
    · simp only [isDescriptionLine, Bool.and_eq_true, decide_eq_true_eq] at h
      rcases h1 with h1 | h1
      · exact absurd h1 h.1.1.1.1.1
      · exact absurd h1 h.1.1.1.1.2
  · rcases h with h | h
    · exact h
    · simp [isDescriptionLine, h2] at h
  · rcases h with h | h
    · exact h
    · simp [isDescriptionLine, h3] at h
  · rcases h with h | h
    · exact h
    · simp [isDescriptionLine, h4] at h
  · have := Contains_length h5
    rw [labelDescription_eq] at this
    simp only [List.length_cons, List.length_nil] at this
    intro e
    have := congrArg List.length e
    simp only [List.length_drop, List.length_nil] at this
    omega
  · rcases h with h | h
    · exact h
    · simp [isDescriptionLine, h5] at h

theorem foldl_lineField_Description_ne {lines : List GoString} (t : DNAFile)
    (h : t.Description ≠ [] ∨ ∃ line ∈ lines, isDescriptionLine line = true) :
    (lines.foldl lineField t).Description ≠ [] := by
  induction lines generalizing t with
  | nil =>
    rcases h with h | ⟨l, hl, _⟩
    · exact h
    · cases hl
  | cons l ls ih =>
    rw [List.foldl_cons]
    apply ih
    rcases h with h | ⟨x, hx, hx2⟩
    · exact Or.inl (lineField_Description_ne t l (Or.inl h))
    · rcases List.mem_cons.1 hx with rfl | hx
      · exact Or.inl (lineField_Description_ne t x (Or.inr hx2))
      · exact Or.inr ⟨x, hx, hx2⟩

theorem keptRecords_of_hasDescriptionLine (element : GoString) {block : GoString}
    (h : hasDescriptionLine block) :
    keptRecords element [block] = [blockFields element block] := by
  have : (blockFields element block).Description ≠ [] :=
    foldl_lineField_Description_ne _ (Or.inr h)
  simp [keptRecords, this]

/-! ## Comment markers -/

theorem slashes_eq : str "//" = [47, 47] := by decide

theorem hash_eq : str "#" = [35] := by decide

theorem replaceFrom_nil (old new : GoString) (k : Nat) : replaceFrom old new k [] = [] := by
  cases k <;> rfl

theorem replaceFrom_slashes_head (t r : GoString)
    (h : replaceFrom [47, 47] [] 0 t = 47 :: r) : ∃ u, t = 47 :: u := by
  cases t with
  | nil => simp [replaceFrom] at h
  | cons x u =>
    rw [replaceFrom] at h
    split at h
    · rename_i hp
      rcases List.prefix_cons_iff.1 (List.isPrefixOf_iff_prefix.1 hp) with h1 | ⟨_, h1, _⟩
      · cases h1
      · simp only [List.cons.injEq] at h1
        exact ⟨u, by rw [h1.1]⟩
    · simp only [List.cons.injEq] at h
      exact ⟨u, by rw [h.1]⟩

/-- After the replacer for `//` no `//` is left, runs of slashes included. -/
theorem replaceFrom_slashes (k : Nat) (s : GoString) :
    Contains (replaceFrom [47, 47] [] k s) [47, 47] = false := by
  induction s generalizing k with
  | nil => rw [replaceFrom_nil]; rfl
  | cons c t ih =>
    cases k with
    | succ k => rw [replaceFrom]; exact ih k
    | zero =>
      rw [replaceFrom]
      split
      · rw [List.nil_append]; exact ih _
      · rename_i hp
        rw [Contains, ih 0, Bool.or_false]
        cases hq : List.isPrefixOf [47, 47] (c :: replaceFrom [47, 47] [] 0 t) with
        | false => rfl
        | true =>
          exfalso
          apply hp
          rcases List.prefix_cons_iff.1 (List.isPrefixOf_iff_prefix.1 hq) with h1 | ⟨v, h1, h2⟩
          · cases h1
          · simp only [List.cons.injEq] at h1
            obtain ⟨hc, hv⟩ := h1
            subst hv
            obtain ⟨r, hr⟩ := h2
            obtain ⟨u, hu⟩ := replaceFrom_slashes_head t r hr.symm
            rw [hu, ← hc]
            simp

/-- After the replacer for `#` no `#` is left. -/
theorem replaceFrom_hash (k : Nat) (s : GoString) : (35 : Nat) ∉ replaceFrom [35] [] k s := by
  induction s generalizing k with
  | nil => rw [replaceFrom_nil]; simp
  | cons c t ih =>
    cases k with
    | succ k => rw [replaceFrom]; exact ih k
    | zero =>
      rw [replaceFrom]
      split
      · rw [List.nil_append]; exact ih _
      · rename_i hp
        intro hm
        rcases List.mem_cons.1 hm with h1 | h1
        · apply hp
          rw [← h1]
          simp
        · exact ih 0 h1

theorem Contains_singleton_of_not_mem {s : GoString} {b : Nat} (h : b ∉ s) :
    Contains s [b] = false := by
  cases hc : Contains s [b] with
  | false => rfl
  | true =>
    obtain ⟨u, v, huv⟩ := (Contains_iff_IsInfix _ _).1 hc
    exact absurd (by rw [← huv]; simp) h

/-- The extension test on a path of at least `k` bytes. -/
theorem extensionIs_of_le {element : GoString} {k : Nat} (ext : GoString)
    (h : k ≤ element.length) :
    extensionIs element k ext = some (decide (element.drop (element.length - k) = ext)) := by
  unfold extensionIs
  have e : (element.length : Int) - (k : Int) = ((element.length - k : Nat) : Int) := by omega
  rw [e, sliceFrom_of_le (Nat.sub_le _ _)]
  rfl

theorem extensionIs_of_lt {element : GoString} {k : Nat} (ext : GoString)
    (h : element.length < k) : extensionIs element k ext = none := by
  unfold extensionIs sliceFrom
  rw [if_neg (by omega)]
  rfl

theorem drop_eq_of_suffix {element ext : GoString} (h : ext <:+ element) :
    element.drop (element.length - ext.length) = ext := by
  obtain ⟨u, rfl⟩ := h
  simp

theorem suffix_of_drop_eq {element ext : GoString} {k : Nat}
    (h : element.drop (element.length - k) = ext) : ext <:+ element := by
  rw [← h]
  exact List.drop_suffix _ _

/-- The extension step on a path of at least five bytes. -/
theorem normalize_of_le {element : GoString} (data : GoString) (h : 5 ≤ element.length) :
    normalize element data =
      some (
        let data1 :=
          if str ".java" <:+ element ∨ str ".js" <:+ element then Replace (str "//") [] data
          else data
        if str ".py" <:+ element then Replace (str "#") [] data1 else data1) := by
  have h3 : 3 ≤ element.length := by omega
  have s1 : decide (element.drop (element.length - 5) = str ".java") =
      decide (str ".java" <:+ element) := by
    apply decide_eq_decide.2
    exact ⟨suffix_of_drop_eq, fun hs => drop_eq_of_suffix hs⟩
  have s2 : decide (element.drop (element.length - 3) = str ".js") =
      decide (str ".js" <:+ element) := by
    apply decide_eq_decide.2
    exact ⟨suffix_of_drop_eq, fun hs => drop_eq_of_suffix hs⟩
  have s3 : decide (element.drop (element.length - 3) = str ".py") =
      decide (str ".py" <:+ element) := by
    apply decide_eq_decide.2
    exact ⟨suffix_of_drop_eq, fun hs => drop_eq_of_suffix hs⟩
  unfold normalize
  rw [extensionIs_of_le _ h, extensionIs_of_le _ h3, extensionIs_of_le _ h3, s1, s2, s3]
  by_cases hj : str ".java" <:+ element <;> by_cases hs : str ".js" <:+ element <;>
    by_cases hp : str ".py" <:+ element <;> simp [hj, hs, hp]

theorem normalize_some_length {element data text : GoString}
    (h : normalize element data = some text) : 5 ≤ element.length := by
  by_contra hlt
  have : extensionIs element 5 (str ".java") = none := extensionIs_of_lt _ (by omega)
  simp [normalize, this] at h

theorem java_not_py {element : GoString} (h : str ".java" <:+ element) :
    ¬ str ".py" <:+ element := by
  intro h2
  rcases List.suffix_or_suffix_of_suffix h h2 with h3 | h3
  · exact absurd (h3.length_le) (by decide)
  · revert h3; decide

theorem js_not_py {element : GoString} (h : str ".js" <:+ element) :
    ¬ str ".py" <:+ element := by
  intro h2
  rcases List.suffix_or_suffix_of_suffix h h2 with h3 | h3
  · revert h3; decide
  · revert h3; decide

/-- Claim C4: on a path of at least five bytes block matching has a text to
run on, and whenever it has one, the text has no `//` left for a path that
ends in `.java` or `.js` and no `#` left for a path that ends in `.py`. -/
theorem normalize_removes_markers (element data : GoString) :
    (5 ≤ element.length → ∃ text, normalize element data = some text) ∧
    ∀ text, normalize element data = some text →
      ((str ".java" <:+ element ∨ str ".js" <:+ element) →
        Contains text (str "//") = false) ∧
      (str ".py" <:+ element → Contains text (str "#") = false) := by
  refine ⟨fun h => ⟨_, normalize_of_le data h⟩, ?_⟩
  intro text ht
  have hlen := normalize_some_length ht
  rw [normalize_of_le data hlen] at ht
  simp only [Option.some.injEq] at ht
  constructor
  · intro hjs
    have hpy : ¬ str ".py" <:+ element := by
      rcases hjs with h | h
      · exact java_not_py h
      · exact js_not_py h
    rw [if_pos hjs, if_neg hpy] at ht
    rw [← ht, slashes_eq]
    exact replaceFrom_slashes 0 data
  · intro hpy
    rw [if_pos hpy] at ht
    rw [← ht, hash_eq]
    exact Contains_singleton_of_not_mem (replaceFrom_hash 0 _)

theorem normalize_removes_markers_witness :
    (∃ text, normalize (str "Main.java") (str "a///b////c//") = some text) ∧
      Contains (str "a/bc") (str "//") = false ∧
      Contains (str "x = 1  note") (str "#") = false :=
  ⟨(normalize_removes_markers (str "Main.java") (str "a///b////c//")).1 (by decide),
    ((normalize_removes_markers (str "Main.java") (str "a///b////c//")).2 (str "a/bc")
      (by decide)).1 (Or.inl (by decide)),
    ((normalize_removes_markers (str "tool.py") (str "x = 1 ## note#")).2 (str "x = 1  note")
      (by decide)).2 (by decide)⟩

/-- Claim C5, the failing input: on the path `a.c` the first extension test
slices at `-2` and `GetMatches` panics, whatever the file holds. -/
theorem GetMatches_short_path_panics (readFile : GoString → Option GoString)
    (data : GoString) (ms : List DNAFile) :
    normalize (str "a.c") data = none ∧ GetMatches readFile [str "a.c"] ms = none := by
  have h : ∀ d, normalize (str "a.c") d = none := by
    intro d
    have : extensionIs (str "a.c") 5 (str ".java") = none := by decide
    simp [normalize, this]
  exact ⟨h data, by simp [GetMatches, scanFile, h]⟩

/-! ## Navigation -/

theorem clampIndex_bounds (ms : List DNAFile) (i : Int) (hN : 1 ≤ ms.length) :
    0 ≤ clampIndex ms i ∧ clampIndex ms i ≤ (ms.length : Int) - 1 := by
  unfold clampIndex
  simp only
  split_ifs <;> omega

theorem index_of_bounds {ms : List DNAFile} {i : Int} (h0 : 0 ≤ i)
    (h1 : i ≤ (ms.length : Int) - 1) : ∃ m, index ms i = some m := by
  unfold index
  rw [if_pos h0]
  have : i.toNat < ms.length := by omega
  exact ⟨ms.get ⟨i.toNat, this⟩, List.get?_eq_get this⟩

/-- With a record to show, `NewView` does not panic, leaves the index clamped
and the match store as it was, whatever the terminal answers. -/
theorem NewView_index {G : Type} (api : Gocui G) (st : Viewer G) (hN : 1 ≤ st.ms.length) :
    ∃ st1 err, NewView api st = some (st1, err) ∧
      st1.viewIndex = clampIndex st.ms st.viewIndex ∧ st1.ms = st.ms := by
  obtain ⟨h0, h1⟩ := clampIndex_bounds st.ms st.viewIndex hN
  obtain ⟨m, hm⟩ := index_of_bounds h0 h1
  unfold NewView
  simp only [hm, Option.some_bind]
  split_ifs <;> exact ⟨_, _, rfl, rfl, rfl⟩

theorem handle_index {G : Type} (api : Gocui G) (st : Viewer G) (mv : Move)
    (hN : 1 ≤ st.ms.length) :
    ∃ st1 err, handle api st mv = some (st1, err) ∧
      0 ≤ st1.viewIndex ∧ st1.viewIndex ≤ (st.ms.length : Int) - 1 ∧ st1.ms = st.ms := by
  cases mv with
  | next =>
    obtain ⟨st1, err, h, hi, hm⟩ := NewView_index api { st with viewIndex := st.viewIndex + 1 } hN
    have hb := clampIndex_bounds st.ms (st.viewIndex + 1) hN
    exact ⟨st1, err, h, by rw [hi]; exact hb.1, by rw [hi]; exact hb.2, hm⟩
  | previous =>
    obtain ⟨st1, err, h, hi, hm⟩ := NewView_index api { st with viewIndex := st.viewIndex - 1 } hN
    have hb := clampIndex_bounds st.ms (st.viewIndex - 1) hN
    exact ⟨st1, err, h, by rw [hi]; exact hb.1, by rw [hi]; exact hb.2, hm⟩

theorem runMoves_index {G : Type} (api : Gocui G) (st : Viewer G) (moves : List Move)
    (hN : 1 ≤ st.ms.length) (h0 : 0 ≤ st.viewIndex)
    (h1 : st.viewIndex ≤ (st.ms.length : Int) - 1) :
    ∃ st2, runMoves api st moves = some st2 ∧
      0 ≤ st2.viewIndex ∧ st2.viewIndex ≤ (st.ms.length : Int) - 1 ∧ st2.ms = st.ms := by
  induction moves generalizing st with
  | nil => exact ⟨st, rfl, h0, h1, rfl⟩
  | cons mv rest ih =>
    obtain ⟨st1, err, h, a, b, c⟩ := handle_index api st mv hN
    obtain ⟨st2, h2, a2, b2, c2⟩ := ih st1 (by rw [c]; exact hN) a (by rw [c]; exact b)
    refine ⟨st2, ?_, a2, ?_, ?_⟩
    · rw [runMoves, h, Option.some_bind]; exact h2
    · rw [c] at b2; exact b2
    · rw [c2, c]

/-- Claim C7: with `N ≥ 1` records and `0 ≤ viewIndex ≤ N-1`, `NextView`
leaves `viewIndex = min (viewIndex+1) (N-1)` and `PreviousView` leaves
`viewIndex = max (viewIndex-1) 0`, and after every sequence of the two keys
from index `0` the index is between `0` and `N-1`. -/
theorem viewIndex_clamped {G : Type} (api : Gocui G) (st : Viewer G) (moves : List Move)
    (hN : 1 ≤ st.ms.length) (h0 : 0 ≤ st.viewIndex)
    (h1 : st.viewIndex ≤ (st.ms.length : Int) - 1) :
    (∃ st1 err, NextView api st = some (st1, err) ∧
      st1.viewIndex = min (st.viewIndex + 1) ((st.ms.length : Int) - 1) ∧ st1.ms = st.ms) ∧
    (∃ st1 err, PreviousView api st = some (st1, err) ∧
      st1.viewIndex = max (st.viewIndex - 1) 0 ∧ st1.ms = st.ms) ∧
    (∃ st2, runMoves api { st with viewIndex := 0 } moves = some st2 ∧
      0 ≤ st2.viewIndex ∧ st2.viewIndex ≤ (st.ms.length : Int) - 1 ∧ st2.ms = st.ms) := by
  refine ⟨?_, ?_, ?_⟩
  · obtain ⟨st1, err, h, hi, hm⟩ := NewView_index api { st with viewIndex := st.viewIndex + 1 } hN
    refine ⟨st1, err, h, ?_, hm⟩
    rw [hi]
    unfold clampIndex
    simp only
    split_ifs <;> omega
  · obtain ⟨st1, err, h, hi, hm⟩ := NewView_index api { st with viewIndex := st.viewIndex - 1 } hN
    refine ⟨st1, err, h, ?_, hm⟩
    rw [hi]
    unfold clampIndex
    simp only
    split_ifs <;> omega
  · exact runMoves_index api { st with viewIndex := 0 } moves hN (le_refl _)
      (by simp only; omega)

theorem viewIndex_clamped_witness :
    (∃ st1 err, NextView freshTerminal ⟨threeRecords, 2, ()⟩ = some (st1, err) ∧
      st1.viewIndex = min ((2 : Int) + 1) ((threeRecords.length : Int) - 1) ∧
      st1.ms = threeRecords) ∧
    (∃ st1 err, PreviousView freshTerminal ⟨threeRecords, 2, ()⟩ = some (st1, err) ∧
      st1.viewIndex = max ((2 : Int) - 1) 0 ∧ st1.ms = threeRecords) ∧
    (∃ st2, runMoves freshTerminal ⟨threeRecords, 0, ()⟩
        [Move.previous, Move.next, Move.next, Move.next] = some st2 ∧
      0 ≤ st2.viewIndex ∧ st2.viewIndex ≤ (threeRecords.length : Int) - 1 ∧
      st2.ms = threeRecords) :=
  viewIndex_clamped freshTerminal ⟨threeRecords, 2, ()⟩
    [Move.previous, Move.next, Move.next, Move.next] (by decide) (by decide) (by decide)

/-- Claim C8, the failing input: with an empty match store `NewView` clamps
`viewIndex` to `0` and panics on `matches[0]`, and so does `Layout` when it
creates the help pane. -/
theorem NewView_empty_store_panics {G : Type} (api : Gocui G) (g : G) (i : Int) :
    NewView api ⟨[], i, g⟩ = none ∧ Layout freshTerminal ⟨[], 0, ()⟩ = none := by
  have h : ∀ {H : Type} (a : Gocui H) (x : H) (j : Int), NewView a ⟨[], j, x⟩ = none := by
    intro H a x j
    have hc : clampIndex [] j = 0 := by
      unfold clampIndex
      simp only [List.length_nil]
      split_ifs <;> omega
    unfold NewView
    simp only [hc]
    rfl
  refine ⟨h api g i, ?_⟩
  have e : Layout freshTerminal ⟨[], 0, ()⟩ = NewView freshTerminal ⟨[], 0, ()⟩ := rfl
  rw [e]
  exact h _ _ _

/-! ## The last line of a field -/

theorem lineField_eq_lineCase (t : DNAFile) (line : GoString) :
    lineField t line =
      match lineCase line with
      | none => t
      | some (f, v) => setField t f v := by
  unfold lineField lineCase
  simp only
  split_ifs <;> rfl

theorem getField_setField (t : DNAFile) (f g : Field) (v : GoString) :
    getField (setField t f v) g = if g = f then v else getField t g := by
  cases f <;> cases g <;> simp [getField, setField]

theorem getField_lineField (t : DNAFile) (line : GoString) (g : Field) :
    getField (lineField t line) g =
      match lineCase line with
      | none => getField t g
      | some (f, v) => if g = f then v else getField t g := by
  rw [lineField_eq_lineCase]
  cases lineCase line with
  | none => rfl
  | some r => exact getField_setField t r.1 g r.2

/-- Lines that do not assign a field leave it as it was. -/
theorem getField_foldl_of_no_case (t : DNAFile) (lines : List GoString) (g : Field)
    (h : ∀ x ∈ lines, (lineCase x).map Prod.fst ≠ some g) :
    getField (lines.foldl lineField t) g = getField t g := by
  induction lines generalizing t with
  | nil => rfl
  | cons l ls ih =>
    rw [List.foldl_cons, ih _ (fun x hx => h x (List.mem_cons_of_mem _ hx)), getField_lineField]
    cases hc : lineCase l with
    | none => rfl
    | some r =>
      obtain ⟨f, v⟩ := r
      simp only
      rw [if_neg]
      intro e
      exact h l (List.mem_cons_self _ _) (by rw [hc, e]; rfl)

/-- The field holds the value of the last line that assigns it. -/
theorem getField_foldl_last (t : DNAFile) (pre post : List GoString) (line : GoString)
    (f : Field) (v : GoString) (hl : lineCase line = some (f, v))
    (hpost : ∀ x ∈ post, (lineCase x).map Prod.fst ≠ some f) :
    getField ((pre ++ line :: post).foldl lineField t) f = v := by
  rw [List.foldl_append, List.foldl_cons, getField_foldl_of_no_case _ _ _ hpost,
    getField_lineField, hl]
  simp

theorem lineField_of_lineCase_none (t : DNAFile) {line : GoString}
    (h : lineCase line = none) : lineField t line = t := by
  rw [lineField_eq_lineCase, h]

theorem lineCase_of_no_label {line : GoString} (h1 : Contains line labelStatus = false)
    (h2 : Contains line labelInput = false) (h3 : Contains line labelOutput = false)
    (h4 : Contains line labelDescription = false) : lineCase line = none := by
  have t1 := Contains_false_of_IsInfix (TrimSpace_IsInfix line) h1
  have t2 := Contains_false_of_IsInfix (TrimSpace_IsInfix line) h2
  have t3 := Contains_false_of_IsInfix (TrimSpace_IsInfix line) h3
  have t4 := Contains_false_of_IsInfix (TrimSpace_IsInfix line) h4
  unfold lineCase
  simp [t1, t2, t3, t4]

theorem lineCase_of_isDescriptionLine {line : GoString} (h : isDescriptionLine line = true) :
    lineCase line = some (Field.Description, (TrimSpace line).drop 12) := by
  simp only [isDescriptionLine, Bool.and_eq_true, decide_eq_true_eq, Bool.not_eq_true'] at h
  obtain ⟨⟨⟨⟨⟨h1, h2⟩, h3⟩, h4⟩, h5⟩, h6⟩ := h
  unfold lineCase
  simp [h1, h2, h3, h4, h5, h6]

theorem isDescriptionLine_of_lineCase {line : GoString}
    (h : (lineCase line).map Prod.fst = some Field.Description) :
    isDescriptionLine line = true := by
  unfold lineCase at h
  simp only at h
  split_ifs at h with h1 h2 h3 h4 h5
  · exact absurd h (by simp)
  · exact absurd h (by simp)
  · exact absurd h (by simp)
  · exact absurd h (by simp)
  · simp only [not_or] at h1
    simp [isDescriptionLine, h1.1, h1.2, h2, h3, h4, h5]
  · exact absurd h (by simp)

/-- Claim C9, amended: a field of the record of a block holds the value of the
last line of the block on which the case of that field is taken. -/
theorem blockRecord_last_line (element block : GoString) (pre post : List GoString)
    (line : GoString) (f : Field) (v : GoString)
    (hs : splitLines block = pre ++ line :: post)
    (hl : lineCase line = some (f, v))
    (hpost : ∀ x ∈ post, (lineCase x).map Prod.fst ≠ some f) :
    ∃ r, blockRecord element block = some r ∧ getField r f = v := by
  refine ⟨blockFields element block, blockRecord_eq _ _, ?_⟩
  have h := getField_foldl_last {} pre post line f v hl hpost
  rw [← hs] at h
  rw [← h]
  cases f <;> rfl

theorem blockRecord_last_line_witness :
    ∃ r, blockRecord (str "main.go") twoDescriptions = some r ∧
      getField r Field.Description = str " second" :=
  blockRecord_last_line (str "main.go") twoDescriptions
    [startMarker, str "Description: first"] [endMarker] (str "Description: second")
    Field.Description (str " second") (by decide) (by decide) (by decide)

/-- Claim C9 as stated fails on a block with two description lines: the
record holds the text of the second, not of the first. -/
theorem twoDescriptions_keeps_last :
    splitLines twoDescriptions =
      [startMarker, str "Description: first", str "Description: second", endMarker] ∧
    ¬ ∃ r, blockRecord (str "main.go") twoDescriptions = some r ∧
      (r.Description = str " first" ∨ r.Description = str "first") := by
  refine ⟨by decide, ?_⟩
  have h : blockRecord (str "main.go") twoDescriptions =
      some { Location := str "main.go", Description := str " second" } := by decide
  rintro ⟨r, hr, hd⟩
  rw [h] at hr
  simp only [Option.some.injEq] at hr
  subst hr
  revert hd
  decide

/-- Claim C10: a line without any of the four labels behind the description
line changes nothing: the record is the record of the block without that
line, and with no description line further down the description is the slice
of the description line. -/
theorem continuation_line_ignored (element block block2 : GoString) (ms : List DNAFile)
    (pre post : List GoString) (desc cont : GoString)
    (h1 : splitLines block = pre ++ desc :: cont :: post)
    (h2 : splitLines block2 = pre ++ desc :: post)
    (hdesc : isDescriptionLine desc = true)
    (c1 : Contains cont labelStatus = false) (c2 : Contains cont labelInput = false)
    (c3 : Contains cont labelOutput = false) (c4 : Contains cont labelDescription = false) :
    blockRecord element block = blockRecord element block2 ∧
    processMatch element ms block = processMatch element ms block2 ∧
    ((∀ x ∈ post, isDescriptionLine x = false) →
      ∃ r, blockRecord element block = some r ∧
        r.Description = (TrimSpace desc).drop 12) := by
  have hf : blockFields element block = blockFields element block2 := by
    simp only [blockFields, h1, h2, List.foldl_append, List.foldl_cons,
      lineField_of_lineCase_none _ (lineCase_of_no_label c1 c2 c3 c4)]
  refine ⟨by rw [blockRecord_eq, blockRecord_eq, hf], ?_, ?_⟩
  · rw [processMatch_eq, processMatch_eq]
    simp only [keptRecords, List.map_cons, List.map_nil, hf]
  · intro hp
    refine ⟨blockFields element block, blockRecord_eq _ _, ?_⟩
    have h := getField_foldl_last {} pre (cont :: post) desc Field.Description _
      (lineCase_of_isDescriptionLine hdesc) (by
        intro x hx hw
        rcases List.mem_cons.1 hx with rfl | hx
        · rw [lineCase_of_no_label c1 c2 c3 c4] at hw
          cases hw
        · have := isDescriptionLine_of_lineCase hw
          rw [hp x hx] at this
          cases this)
    rw [← h1] at h
    exact h

theorem continuation_line_ignored_witness :
    blockRecord (str "main.go") withContinuation =
      blockRecord (str "main.go") withoutContinuation ∧
    processMatch (str "main.go") [] withContinuation =
      processMatch (str "main.go") [] withoutContinuation ∧
    ((∀ x ∈ [str "Status: Done", endMarker], isDescriptionLine x = false) →
      ∃ r, blockRecord (str "main.go") withContinuation = some r ∧
        r.Description = (TrimSpace (str "Description: adds two")).drop 12) :=
  continuation_line_ignored (str "main.go") withContinuation withoutContinuation []
    [startMarker] [str "Status: Done", endMarker] (str "Description: adds two")
    (str "  numbers") (by decide) (by decide) (by decide) (by decide) (by decide) (by decide)
    (by decide)

/-! ## Prefixed lines -/

theorem joinLines_append_cons (x y : GoString) (rest : List GoString) :
    joinLines ((x ++ y) :: rest) = x ++ joinLines (y :: rest) := by
  cases rest with
  | nil => rfl
  | cons r rs =>
    have e1 : joinLines ((x ++ y) :: r :: rs) = (x ++ y) ++ nl :: joinLines (r :: rs) := rfl
    have e2 : joinLines (y :: r :: rs) = y ++ nl :: joinLines (r :: rs) := rfl
    rw [e1, e2, List.append_assoc]

theorem splitLines_ne_nil (s : GoString) : splitLines s ≠ [] := by
  cases s with
  | nil => simp [splitLines]
  | cons c t =>
    rw [splitLines]
    split_ifs
    · simp
    · split <;> simp

theorem splitLines_cons_of_ne {c : Nat} (hc : c ≠ nl) {t h : GoString} {tl : List GoString}
    (ht : splitLines t = h :: tl) : splitLines (c :: t) = (c :: h) :: tl := by
  rw [splitLines, if_neg hc, ht]

/-- Prefixing the lines puts the prefix in front of the text and behind every
line feed of it. -/
theorem prefixLines_eq (p c : GoString) : prefixLines p c = p ++ afterLineFeeds p c := by
  induction c with
  | nil => simp [prefixLines, splitLines, joinLines, afterLineFeeds]
  | cons b t ih =>
    cases ht : splitLines t with
    | nil => exact absurd ht (splitLines_ne_nil t)
    | cons h tl =>
      unfold prefixLines at ih ⊢
      rw [ht, List.map_cons, joinLines_append_cons] at ih
      have ih2 := List.append_cancel_left ih
      by_cases hb : b = nl
      · subst hb
        have e : splitLines (nl :: t) = [] :: h :: tl := by
          rw [splitLines, if_pos rfl, ht]
        rw [e, List.map_cons, List.map_cons, joinLines_append_cons]
        have e2 : joinLines ([] :: (p ++ h) :: List.map (fun line => p ++ line) tl) =
            nl :: joinLines ((p ++ h) :: List.map (fun line => p ++ line) tl) := rfl
        rw [e2, joinLines_append_cons, ih2, afterLineFeeds, if_pos rfl]
      · rw [splitLines_cons_of_ne hb ht, List.map_cons]
        have e : p ++ b :: h = (p ++ [b]) ++ h := by simp
        rw [e, joinLines_append_cons, ih2, afterLineFeeds, if_neg hb]
        simp

theorem replaceFrom_hash_eq_filter (s : GoString) :
    replaceFrom [35] [] 0 s = s.filter fun b => decide (b ≠ 35) := by
  induction s with
  | nil => rfl
  | cons c t ih =>
    rw [replaceFrom]
    by_cases hc : c = 35
    · subst hc
      have hp : List.isPrefixOf [35] (35 :: t) = true := by simp
      rw [if_pos hp]
      simpa using ih
    · have hp : ¬ List.isPrefixOf [35] (c :: t) = true := by
        simp [Ne.symm hc]
      rw [if_neg hp, ih]
      simp [hc]

theorem filter_afterLineFeeds {c : GoString} (h : (35 : Nat) ∉ c) :
    (afterLineFeeds [35, 32] c).filter (fun b => decide (b ≠ 35)) = afterLineFeeds [32] c := by
  induction c with
  | nil => rfl
  | cons b t ih =>
    simp only [List.mem_cons, not_or] at h
    have hb : b ≠ 35 := fun e => h.1 e.symm
    by_cases hn : b = nl
    · subst hn
      simp only [afterLineFeeds, if_true, List.cons_append, List.nil_append]
      rw [List.filter_cons_of_pos (by decide), List.filter_cons_of_neg (by decide),
        List.filter_cons_of_pos (by decide), ih h.2]
    · simp only [afterLineFeeds, if_neg hn]
      rw [List.filter_cons_of_pos (by simpa using hb), ih h.2]

/-- The replacer for `#` on a text whose lines were prefixed by `# `: what is
left is the text with a space before every line. -/
theorem Replace_hash_prefixLines {c : GoString} (h : (35 : Nat) ∉ c) :
    Replace (str "#") [] (prefixLines (str "# ") c) = 32 :: afterLineFeeds [32] c := by
  have e1 : str "#" = [35] := by decide
  have e2 : str "# " = [35, 32] := by decide
  rw [Replace, e1, e2, replaceFrom_hash_eq_filter, prefixLines_eq]
  simp only [List.cons_append, List.nil_append]
  rw [List.filter_cons_of_neg (by decide), List.filter_cons_of_pos (by decide),
    filter_afterLineFeeds h]

/-! ## Indented text -/

theorem indent_append (a b : GoString) :
    afterLineFeeds [32] (a ++ b) = afterLineFeeds [32] a ++ afterLineFeeds [32] b := by
  induction a with
  | nil => rfl
  | cons x a ih =>
    rw [List.cons_append, afterLineFeeds, afterLineFeeds, ih]
    split_ifs <;> simp

theorem indent_of_not_mem {a : GoString} (h : nl ∉ a) : afterLineFeeds [32] a = a := by
  induction a with
  | nil => rfl
  | cons x a ih =>
    simp only [List.mem_cons, not_or] at h
    rw [afterLineFeeds, if_neg (fun e => h.1 e.symm), ih h.2]

theorem length_le_indent (s : GoString) : s.length ≤ (afterLineFeeds [32] s).length := by
  induction s with
  | nil => exact le_refl _
  | cons x a ih =>
    rw [afterLineFeeds]
    split_ifs <;> simp only [List.length_cons, List.length_append] <;> omega

theorem isPrefixOf_cons_of_not_mem {pat : GoString} {b : Nat} (X : GoString)
    (hne : pat ≠ []) (hb : b ∉ pat) : pat.isPrefixOf (b :: X) = false := by
  cases pat with
  | nil => exact absurd rfl hne
  | cons p ps =>
    simp only [List.mem_cons, not_or] at hb
    rw [List.isPrefixOf_cons₂]
    have : (p == b) = false := by simpa using Ne.symm hb.1
    rw [this, Bool.false_and]

theorem isPrefixOf_indent {pat : GoString} (h : nl ∉ pat) (s : GoString) :
    pat.isPrefixOf (afterLineFeeds [32] s) = pat.isPrefixOf s := by
  induction pat generalizing s with
  | nil => simp
  | cons p ps ih =>
    simp only [List.mem_cons, not_or] at h
    cases s with
    | nil => rfl
    | cons c t =>
      by_cases hc : c = nl
      · subst hc
        rw [afterLineFeeds, if_pos rfl, List.isPrefixOf_cons₂, List.isPrefixOf_cons₂]
        have : (p == nl) = false := by simpa using Ne.symm h.1
        rw [this, Bool.false_and, Bool.false_and]
      · rw [afterLineFeeds, if_neg hc]
        simp only [List.isPrefixOf_cons₂, ih h.2]

/-- The first occurrence of a marker in an indented text is the one of the
text itself. -/
theorem cut_indent {pat : GoString} (hne : pat ≠ []) (hnl : nl ∉ pat) (hsp : (32 : Nat) ∉ pat)
    (s : GoString) :
    cut (afterLineFeeds [32] s) pat =
      (cut s pat).map fun r => (afterLineFeeds [32] r.1, afterLineFeeds [32] r.2) := by
  induction s with
  | nil =>
    cases pat with
    | nil => exact absurd rfl hne
    | cons p ps => rfl
  | cons c t ih =>
    cases hp : pat.isPrefixOf (c :: t) with
    | true =>
      obtain ⟨r, hr⟩ := List.isPrefixOf_iff_prefix.1 hp
      rw [← hr, indent_append, indent_of_not_mem hnl, cut_append_left, cut_append_left]
      rfl
    | false =>
      rw [cut_cons_of_not_IsPrefix hp]
      by_cases hc : c = nl
      · subst hc
        have e : afterLineFeeds [32] (nl :: t) = nl :: 32 :: afterLineFeeds [32] t := by
          rw [afterLineFeeds, if_pos rfl]; rfl
        rw [e, cut_cons_of_not_IsPrefix (isPrefixOf_cons_of_not_mem _ hne hnl),
          cut_cons_of_not_IsPrefix (isPrefixOf_cons_of_not_mem _ hne hsp), ih]
        cases cut t pat with
        | none => rfl
        | some r => simp [afterLineFeeds]
      · have hq : pat.isPrefixOf (afterLineFeeds [32] (c :: t)) = false := by
          rw [isPrefixOf_indent hnl, hp]
        rw [afterLineFeeds, if_neg hc] at hq ⊢
        rw [cut_cons_of_not_IsPrefix hq, ih]
        cases cut t pat with
        | none => rfl
        | some r => simp [afterLineFeeds, hc]

theorem indent_block (body : GoString) :
    startMarker ++ afterLineFeeds [32] body ++ endMarker =
      afterLineFeeds [32] (startMarker ++ body ++ endMarker) := by
  rw [indent_append, indent_append, indent_of_not_mem (by decide : nl ∉ startMarker),
    indent_of_not_mem (by decide : nl ∉ endMarker)]

theorem findBlocksFuel_indent (n : Nat) (s : GoString) :
    findBlocksFuel n (afterLineFeeds [32] s) =
      (findBlocksFuel n s).map (afterLineFeeds [32]) := by
  induction n generalizing s with
  | zero => rfl
  | succ n ih =>
    simp only [findBlocksFuel]
    rw [cut_indent (by decide) (by decide) (by decide)]
    cases h1 : cut s startMarker with
    | none => rfl
    | some r1 =>
      obtain ⟨pre, afterStart⟩ := r1
      simp only [Option.map_some']
      rw [cut_indent (by decide) (by decide) (by decide)]
      cases h2 : cut afterStart endMarker with
      | none => rfl
      | some r2 =>
        obtain ⟨body, rest⟩ := r2
        simp only [Option.map_some', List.map_cons, ih, indent_block]

/-- The blocks of an indented text are the blocks of the text, indented. -/
theorem findBlocks_indent (s : GoString) :
    findBlocks (afterLineFeeds [32] s) = (findBlocks s).map (afterLineFeeds [32]) := by
  rw [findBlocks, findBlocksFuel_indent, findBlocks_eq_fuel (length_le_indent s)]

theorem findBlocks_cons_space (s : GoString) : findBlocks (32 :: s) = findBlocks s := by
  rw [findBlocks_unfold, findBlocks_unfold s,
    cut_cons_of_not_IsPrefix (isPrefixOf_cons_of_not_mem _ (by decide) (by decide))]
  cases cut s startMarker with
  | none => rfl
  | some r => rfl

theorem trimLeft_cons_space (l : GoString) : trimLeft (32 :: l) = trimLeft l := by
  have h : spaceWidth (32 :: l) = 1 := by
    match l with
    | [] => rfl
    | [_] => rfl
    | _ :: _ :: _ => rfl
  unfold trimLeft
  rw [trimFrom, h]

theorem lineField_cons_space (t : DNAFile) (l : GoString) :
    lineField t (32 :: l) = lineField t l := by
  unfold lineField TrimSpace
  rw [trimLeft_cons_space]

theorem foldl_lineField_map_space (t : DNAFile) (lines : List GoString) :
    (lines.map fun l => 32 :: l).foldl lineField t = lines.foldl lineField t := by
  induction lines generalizing t with
  | nil => rfl
  | cons l ls ih => rw [List.map_cons, List.foldl_cons, List.foldl_cons, lineField_cons_space, ih]

/-- The lines of an indented text: the first line as it was and a space
before each of the others. -/
theorem splitLines_indent (b h : GoString) (tl : List GoString)
    (hb : splitLines b = h :: tl) :
    splitLines (afterLineFeeds [32] b) = h :: tl.map fun l => 32 :: l := by
  induction b generalizing h tl with
  | nil =>
    simp only [splitLines, List.cons.injEq] at hb
    obtain ⟨rfl, rfl⟩ := hb
    rfl
  | cons c t ih =>
    cases ht : splitLines t with
    | nil => exact absurd ht (splitLines_ne_nil t)
    | cons h2 tl2 =>
      by_cases hc : c = nl
      · subst hc
        rw [splitLines, if_pos rfl, ht] at hb
        simp only [List.cons.injEq] at hb
        obtain ⟨rfl, rfl⟩ := hb
        have e : afterLineFeeds [32] (nl :: t) = nl :: 32 :: afterLineFeeds [32] t := by
          rw [afterLineFeeds, if_pos rfl]; rfl
        rw [e, splitLines, if_pos rfl,
          splitLines_cons_of_ne (by decide : (32 : Nat) ≠ nl) (ih h2 tl2 ht)]
        rfl
      · rw [splitLines_cons_of_ne hc ht] at hb
        simp only [List.cons.injEq] at hb
        obtain ⟨rfl, rfl⟩ := hb
        rw [afterLineFeeds, if_neg hc, splitLines_cons_of_ne hc (ih h2 tl2 ht)]

/-- The fields parsed from an indented block are those of the block. -/
theorem foldl_lineField_indent (t : DNAFile) (b : GoString) :
    (splitLines (afterLineFeeds [32] b)).foldl lineField t =
      (splitLines b).foldl lineField t := by
  cases hb : splitLines b with
  | nil => exact absurd hb (splitLines_ne_nil b)
  | cons h tl =>
    rw [splitLines_indent b h tl hb, List.foldl_cons, List.foldl_cons, foldl_lineField_map_space]

theorem fieldsOf_blockFields_indent (e1 e2 b : GoString) :
    fieldsOf (blockFields e1 (afterLineFeeds [32] b)) = fieldsOf (blockFields e2 b) ∧
    (blockFields e1 (afterLineFeeds [32] b)).Description = (blockFields e2 b).Description := by
  simp only [blockFields, fieldsOf, foldl_lineField_indent, and_self]

theorem keptRecords_indent (e1 e2 : GoString) (blocks : List GoString) :
    (keptRecords e1 (blocks.map (afterLineFeeds [32]))).map fieldsOf =
      (keptRecords e2 blocks).map fieldsOf := by
  induction blocks with
  | nil => rfl
  | cons b bs ih =>
    rw [List.map_cons, keptRecords_cons, keptRecords_cons e2, List.map_append, List.map_append,
      ih]
    congr 1
    obtain ⟨hf, hd⟩ := fieldsOf_blockFields_indent e1 e2 b
    by_cases h : (blockFields e2 b).Description = []
    · have h2 : (blockFields e1 (afterLineFeeds [32] b)).Description = [] := by rw [hd, h]
      simp [keptRecords, h, h2]
    · have h2 : (blockFields e1 (afterLineFeeds [32] b)).Description ≠ [] := by rw [hd]; exact h
      simp [keptRecords, h, h2, hf]

/-- The records of a text with a space before every line have the fields of
the records of the text. -/
theorem fileRecords_indent (e1 e2 c : GoString) :
    (fileRecords e1 (32 :: afterLineFeeds [32] c)).map fieldsOf =
      (fileRecords e2 c).map fieldsOf := by
  rw [fileRecords, fileRecords, findBlocks_cons_space, findBlocks_indent, keptRecords_indent]

theorem GetMatches_single_length {readFile : GoString → Option GoString} {element : GoString}
    {recs : List DNAFile} (h : GetMatches readFile [element] [] = some recs) :
    5 ≤ element.length := by
  rw [GetMatches] at h
  cases hs : scanFile readFile [] element with
  | none => rw [hs] at h; cases h
  | some ms1 =>
    obtain ⟨text, ht, _⟩ := scanFile_some hs
    exact normalize_some_length ht

theorem normalize_py {element : GoString} (data : GoString) (hlen : 5 ≤ element.length)
    (hpy : str ".py" <:+ element) :
    normalize element data = some (Replace (str "#") [] data) := by
  rw [normalize_of_le data hlen]
  have h1 : ¬ (str ".java" <:+ element ∨ str ".js" <:+ element) := by
    rintro (h | h)
    · exact java_not_py h hpy
    · exact js_not_py h hpy
  simp only [if_neg h1, if_pos hpy]

theorem normalize_other {element : GoString} (data : GoString) (hlen : 5 ≤ element.length)
    (h1 : ¬ str ".java" <:+ element) (h2 : ¬ str ".js" <:+ element)
    (h3 : ¬ str ".py" <:+ element) : normalize element data = some data := by
  rw [normalize_of_le data hlen]
  simp [h1, h2, h3]

/-- Claim C6: for a content `c` without `#`, the records of a `.py` file
that holds `c` with every line prefixed by `# ` have, in the same order, the
description, input, output and status of the records of a file with `c`
itself whose extension is none of `.java`, `.js`, `.py`; both files give
their records when the paths are at least five bytes long. -/
theorem hash_prefixed_same_fields (readFile : GoString → Option GoString)
    (py other c : GoString) (hc : (35 : Nat) ∉ c) (hpy : str ".py" <:+ py)
    (h1 : ¬ str ".java" <:+ other) (h2 : ¬ str ".js" <:+ other) (h3 : ¬ str ".py" <:+ other)
    (rpy : readFile py = some (prefixLines (str "# ") c)) (rother : readFile other = some c) :
    (5 ≤ py.length → 5 ≤ other.length →
      ∃ recs1 recs2, GetMatches readFile [py] [] = some recs1 ∧
        GetMatches readFile [other] [] = some recs2) ∧
    ∀ recs1 recs2, GetMatches readFile [py] [] = some recs1 →
      GetMatches readFile [other] [] = some recs2 →
      recs1.map fieldsOf = recs2.map fieldsOf := by
  have g1 : 5 ≤ py.length → GetMatches readFile [py] [] =
      some (fileRecords py (32 :: afterLineFeeds [32] c)) := by
    intro hlen
    have := normalize_py (prefixLines (str "# ") c) hlen hpy
    rw [Replace_hash_prefixLines hc] at this
    rw [GetMatches_single [] rpy this, extractBlocks_eq]
    rfl
  have g2 : 5 ≤ other.length →
      GetMatches readFile [other] [] = some (fileRecords other c) := by
    intro hlen
    rw [GetMatches_single [] rother (normalize_other c hlen h1 h2 h3), extractBlocks_eq]
    rfl
  refine ⟨fun l1 l2 => ⟨_, _, g1 l1, g2 l2⟩, ?_⟩
  intro recs1 recs2 e1 e2
  rw [g1 (GetMatches_single_length e1)] at e1
  rw [g2 (GetMatches_single_length e2)] at e2
  rw [← Option.some.inj e1, ← Option.some.inj e2]
  exact fileRecords_indent py other c

theorem hash_prefixed_same_fields_witness :
    (5 ≤ (str "tool.py").length → 5 ≤ (str "notes.txt").length →
      ∃ recs1 recs2, GetMatches scenarioFiles [str "tool.py"] [] = some recs1 ∧
        GetMatches scenarioFiles [str "notes.txt"] [] = some recs2) ∧
    ∀ recs1 recs2, GetMatches scenarioFiles [str "tool.py"] [] = some recs1 →
      GetMatches scenarioFiles [str "notes.txt"] [] = some recs2 →
      recs1.map fieldsOf = recs2.map fieldsOf :=
  hash_prefixed_same_fields scenarioFiles (str "tool.py") (str "notes.txt") scenarioA
    (by decide) (by decide) (by decide) (by decide) (by decide) (by decide) (by decide)

/-- Scenario B: the prefixed scenario A in a `.py` file gives the record of
scenario A. -/
theorem scenarioB_record :
    GetMatches scenarioFiles [str "tool.py"] [] =
      some [{ Location := str "tool.py", Description := str " adds two numbers",
              Input := str " a, b", Output := str " sum", Status := str " Done" }] := by
  decide

/-! ## The case of a line -/

theorem lineField_of_not_marker (tmpDNA : DNAFile) (line : GoString)
    (hs : TrimSpace line ≠ startMarker) (he : TrimSpace line ≠ endMarker) :
    lineField tmpDNA line =
      if Contains (TrimSpace line) labelStatus then
        { tmpDNA with Status := (TrimSpace line).drop 7 }
      else if Contains (TrimSpace line) labelInput then
        { tmpDNA with Input := (TrimSpace line).drop 6 }
      else if Contains (TrimSpace line) labelOutput then
        { tmpDNA with Output := (TrimSpace line).drop 7 }
      else if Contains (TrimSpace line) labelDescription then
        { tmpDNA with Description := (TrimSpace line).drop 12 }
      else tmpDNA := by
  unfold lineField
  simp only [hs, he, or_self, if_false]

/-- Claim C11: on a line that is no marker `parseLine` assigns at most one
field, the one of the first label that the trimmed line contains in the order
`Status: `, `Input: `, `Output: `, `Description: `; a line with `Status: `
and `Description: ` sets `Status` and leaves `Description` as it was. -/
theorem parseLine_first_label (tmpDNA : DNAFile) (line : GoString)
    (hs : TrimSpace line ≠ startMarker) (he : TrimSpace line ≠ endMarker) :
    ∃ t, parseLine tmpDNA line = some t ∧
      (Contains (TrimSpace line) labelStatus = true →
        t = { tmpDNA with Status := (TrimSpace line).drop 7 }) ∧
      (Contains (TrimSpace line) labelStatus = false →
        Contains (TrimSpace line) labelInput = true →
        t = { tmpDNA with Input := (TrimSpace line).drop 6 }) ∧
      (Contains (TrimSpace line) labelStatus = false →
        Contains (TrimSpace line) labelInput = false →
        Contains (TrimSpace line) labelOutput = true →
        t = { tmpDNA with Output := (TrimSpace line).drop 7 }) ∧
      (Contains (TrimSpace line) labelStatus = false →
        Contains (TrimSpace line) labelInput = false →
        Contains (TrimSpace line) labelOutput = false →
        Contains (TrimSpace line) labelDescription = true →
        t = { tmpDNA with Description := (TrimSpace line).drop 12 }) ∧
      (Contains (TrimSpace line) labelStatus = false →
        Contains (TrimSpace line) labelInput = false →
        Contains (TrimSpace line) labelOutput = false →
        Contains (TrimSpace line) labelDescription = false → t = tmpDNA) ∧
      (∃ f, ∀ g, g ≠ f → getField t g = getField tmpDNA g) ∧
      t.Location = tmpDNA.Location ∧ t.Place = tmpDNA.Place ∧
      (Contains (TrimSpace line) labelStatus = true →
        Contains (TrimSpace line) labelDescription = true →
        t.Status = (TrimSpace line).drop 7 ∧ t.Description = tmpDNA.Description) := by
  refine ⟨lineField tmpDNA line, parseLine_eq _ _, ?_⟩
  rw [lineField_of_not_marker tmpDNA line hs he]
  cases h1 : Contains (TrimSpace line) labelStatus with
  | true =>
    rw [if_pos rfl]
    refine ⟨?_, ?_, ?_, ?_, ?_, ⟨Field.Status, ?_⟩, rfl, rfl, ?_⟩
    · intros; rfl
    · intros; contradiction
    · intros; contradiction
    · intros; contradiction
    · intros; contradiction
    · intro g hg
      cases g <;> first | rfl | exact absurd rfl hg
    · intros; exact ⟨rfl, rfl⟩
  | false =>
    rw [if_neg Bool.false_ne_true]
    cases h2 : Contains (TrimSpace line) labelInput with
    | true =>
      rw [if_pos rfl]
      refine ⟨?_, ?_, ?_, ?_, ?_, ⟨Field.Input, ?_⟩, rfl, rfl, ?_⟩
      · intros; contradiction
      · intros; rfl
      · intros; contradiction
      · intros; contradiction
      · intros; contradiction
      · intro g hg
        cases g <;> first | rfl | exact absurd rfl hg
      · intros; contradiction
    | false =>
      rw [if_neg Bool.false_ne_true]
      cases h3 : Contains (TrimSpace line) labelOutput with
      | true =>
        rw [if_pos rfl]
        refine ⟨?_, ?_, ?_, ?_, ?_, ⟨Field.Output, ?_⟩, rfl, rfl, ?_⟩
        · intros; contradiction
        · intros; contradiction
        · intros; rfl
        · intros; contradiction
        · intros; contradiction
        · intro g hg
          cases g <;> first | rfl | exact absurd rfl hg
        · intros; contradiction
      | false =>
        rw [if_neg Bool.false_ne_true]
        cases h4 : Contains (TrimSpace line) labelDescription with
        | true =>
          rw [if_pos rfl]
          refine ⟨?_, ?_, ?_, ?_, ?_, ⟨Field.Description, ?_⟩, rfl, rfl, ?_⟩
          · intros; contradiction
          · intros; contradiction
          · intros; contradiction
          · intros; rfl
          · intros; contradiction
          · intro g hg
            cases g <;> first | rfl | exact absurd rfl hg
          · intros; contradiction
        | false =>
          rw [if_neg Bool.false_ne_true]
          refine ⟨?_, ?_, ?_, ?_, ?_, ⟨Field.Status, ?_⟩, rfl, rfl, ?_⟩
          · intros; contradiction
          · intros; contradiction
          · intros; contradiction
          · intros; contradiction
          · intros; rfl
          · intro g _
            rfl
          · intros; contradiction

theorem parseLine_first_label_witness :
    ∃ t, parseLine {} (str "Status: Done Description: both") = some t ∧
      (Contains (TrimSpace (str "Status: Done Description: both")) labelStatus = true →
        t = { ({} : DNAFile) with
              Status := (TrimSpace (str "Status: Done Description: both")).drop 7 }) ∧
      (Contains (TrimSpace (str "Status: Done Description: both")) labelStatus = false →
        Contains (TrimSpace (str "Status: Done Description: both")) labelInput = true →
        t = { ({} : DNAFile) with
              Input := (TrimSpace (str "Status: Done Description: both")).drop 6 }) ∧
      (Contains (TrimSpace (str "Status: Done Description: both")) labelStatus = false →
        Contains (TrimSpace (str "Status: Done Description: both")) labelInput = false →
        Contains (TrimSpace (str "Status: Done Description: both")) labelOutput = true →
        t = { ({} : DNAFile) with
              Output := (TrimSpace (str "Status: Done Description: both")).drop 7 }) ∧
      (Contains (TrimSpace (str "Status: Done Description: both")) labelStatus = false →
        Contains (TrimSpace (str "Status: Done Description: both")) labelInput = false →
        Contains (TrimSpace (str "Status: Done Description: both")) labelOutput = false →
        Contains (TrimSpace (str "Status: Done Description: both")) labelDescription = true →
        t = { ({} : DNAFile) with
              Description := (TrimSpace (str "Status: Done Description: both")).drop 12 }) ∧
      (Contains (TrimSpace (str "Status: Done Description: both")) labelStatus = false →
        Contains (TrimSpace (str "Status: Done Description: both")) labelInput = false →
        Contains (TrimSpace (str "Status: Done Description: both")) labelOutput = false →
        Contains (TrimSpace (str "Status: Done Description: both")) labelDescription = false →
        t = {}) ∧
      (∃ f, ∀ g, g ≠ f → getField t g = getField {} g) ∧
      t.Location = ({} : DNAFile).Location ∧ t.Place = ({} : DNAFile).Place ∧
      (Contains (TrimSpace (str "Status: Done Description: both")) labelStatus = true →
        Contains (TrimSpace (str "Status: Done Description: both")) labelDescription = true →
        t.Status = (TrimSpace (str "Status: Done Description: both")).drop 7 ∧
          t.Description = ({} : DNAFile).Description) :=
  parseLine_first_label {} (str "Status: Done Description: both") (by decide) (by decide)

/-! ## Slices of the field parser -/

theorem not_marker_of_contains {m L : GoString} (hL : 5 < L.length)
    (h : Contains m L = true) : m ≠ startMarker ∧ m ≠ endMarker := by
  have := Contains_length h
  constructor
  · rintro rfl
    rw [startMarker_eq] at this
    simp only [List.length_cons, List.length_nil] at this
    omega
  · rintro rfl
    rw [endMarker_eq] at this
    simp only [List.length_cons, List.length_nil] at this
    omega

theorem offsetOf_lt_length (f : Field) : offsetOf f < (labelOf f).length := by
  cases f <;> decide

/-- Claim C19: a trimmed line that contains a label is at least as long as
the label, so each of the slices `m[7:]`, `m[6:]`, `m[7:]`, `m[12:]` is in
range, and parsing a line or a block never panics. -/
theorem slices_in_bounds (tmpDNA : DNAFile) (element block line : GoString) (f : Field)
    (h : Contains (TrimSpace line) (labelOf f) = true) :
    (labelOf f).length ≤ (TrimSpace line).length ∧
    offsetOf f ≤ (TrimSpace line).length ∧
    sliceFrom (TrimSpace line) (offsetOf f) = some ((TrimSpace line).drop (offsetOf f)) ∧
    (∃ t, parseLine tmpDNA line = some t) ∧
    (∀ l, ∃ t, parseLine tmpDNA l = some t) ∧
    ∃ r, blockRecord element block = some r := by
  have h1 := Contains_length h
  have h2 : offsetOf f ≤ (TrimSpace line).length := by
    have := offsetOf_lt_length f
    omega
  exact ⟨h1, h2, sliceFrom_of_le h2, ⟨_, parseLine_eq _ _⟩, fun l => ⟨_, parseLine_eq _ l⟩,
    ⟨_, blockRecord_eq _ _⟩⟩

theorem slices_in_bounds_witness :
    (labelOf Field.Input).length ≤ (TrimSpace (str "  Input: a, b ")).length ∧
    offsetOf Field.Input ≤ (TrimSpace (str "  Input: a, b ")).length ∧
    sliceFrom (TrimSpace (str "  Input: a, b ")) (offsetOf Field.Input) =
      some ((TrimSpace (str "  Input: a, b ")).drop (offsetOf Field.Input)) ∧
    (∃ t, parseLine {} (str "  Input: a, b ") = some t) ∧
    (∀ l, ∃ t, parseLine {} l = some t) ∧
    ∃ r, blockRecord (str "main.go") scenarioA = some r :=
  slices_in_bounds {} (str "main.go") scenarioA (str "  Input: a, b ") Field.Input (by decide)

/-! ## The value of a field -/

/-- The case taken on a line that contains a label: the first label in the
order of the switch, with the line from its fixed offset on as the value. -/
theorem lineField_of_label (tmpDNA : DNAFile) (line : GoString) (f : Field)
    (h : Contains (TrimSpace line) (labelOf f) = true) :
    ∃ g, rank g ≤ rank f ∧ Contains (TrimSpace line) (labelOf g) = true ∧
      (∀ k, rank k < rank g → Contains (TrimSpace line) (labelOf k) = false) ∧
      lineField tmpDNA line = setField tmpDNA g ((TrimSpace line).drop (offsetOf g)) := by
  obtain ⟨hs, he⟩ := not_marker_of_contains (by cases f <;> decide) h
  rw [lineField_of_not_marker tmpDNA line hs he]
  cases h1 : Contains (TrimSpace line) labelStatus with
  | true =>
    refine ⟨Field.Status, Nat.zero_le _, h1, ?_, ?_⟩
    · intro k hk
      cases k <;> simp [rank] at hk
    · rw [if_pos rfl]; rfl
  | false =>
    rw [if_neg Bool.false_ne_true]
    cases h2 : Contains (TrimSpace line) labelInput with
    | true =>
      refine ⟨Field.Input, ?_, h2, ?_, ?_⟩
      · cases f
        · rw [labelOf, h1] at h; cases h
        all_goals decide
      · intro k hk
        cases k <;> first | exact h1 | simp [rank] at hk
      · rw [if_pos rfl]; rfl
    | false =>
      rw [if_neg Bool.false_ne_true]
      cases h3 : Contains (TrimSpace line) labelOutput with
      | true =>
        refine ⟨Field.Output, ?_, h3, ?_, ?_⟩
        · cases f
          · rw [labelOf, h1] at h; cases h
          · rw [labelOf, h2] at h; cases h
          all_goals decide
        · intro k hk
          cases k <;> first | exact h1 | exact h2 | simp [rank] at hk
        · rw [if_pos rfl]; rfl
      | false =>
        rw [if_neg Bool.false_ne_true]
        cases f with
        | Status => rw [labelOf, h1] at h; cases h
        | Input => rw [labelOf, h2] at h; cases h
        | Output => rw [labelOf, h3] at h; cases h
        | Description =>
          refine ⟨Field.Description, le_refl _, h, ?_, ?_⟩
          · intro k hk
            cases k <;> first | exact h1 | exact h2 | exact h3 | simp [rank] at hk
          · rw [labelOf] at h
            rw [if_pos h]; rfl

/-- Claim C20: wherever in the trimmed line a label stands, the value assigned
is the trimmed line without its first 7 (`Status`), 6 (`Input`), 7 (`Output`)
or 12 (`Description`) bytes, for the first label of the switch that the line
contains. -/
theorem value_is_fixed_offset (tmpDNA : DNAFile) (line pre post : GoString) (f : Field)
    (h : TrimSpace line = pre ++ labelOf f ++ post) :
    ∃ g, rank g ≤ rank f ∧ Contains (TrimSpace line) (labelOf g) = true ∧
      (∀ k, rank k < rank g → Contains (TrimSpace line) (labelOf k) = false) ∧
      parseLine tmpDNA line =
        some (setField tmpDNA g ((pre ++ labelOf f ++ post).drop (offsetOf g))) := by
  have hc : Contains (TrimSpace line) (labelOf f) = true := by
    rw [h]
    exact (Contains_iff_IsInfix _ _).2 ⟨pre, post, rfl⟩
  obtain ⟨g, h1, h2, h3, h4⟩ := lineField_of_label tmpDNA line f hc
  exact ⟨g, h1, h2, h3, by rw [parseLine_eq, h4, h]⟩

theorem value_is_fixed_offset_witness :
    ∃ g, rank g ≤ rank Field.Status ∧
      Contains (TrimSpace (str " note Status: Done ")) (labelOf g) = true ∧
      (∀ k, rank k < rank g →
        Contains (TrimSpace (str " note Status: Done ")) (labelOf k) = false) ∧
      parseLine {} (str " note Status: Done ") =
        some (setField {} g
          ((str "note " ++ labelOf Field.Status ++ str "Done").drop (offsetOf g))) :=
  value_is_fixed_offset {} (str " note Status: Done ") (str "note ") (str "Done") Field.Status
    (by decide)

/-! ## Lists of files -/

theorem scanFile_eq_map (readFile : GoString → Option GoString) (ms : List DNAFile)
    (element : GoString) :
    scanFile readFile ms element =
      (fileText readFile element).map fun text => ms ++ fileRecords element text := by
  cases h : normalize element ((readFile element).getD []) with
  | none => simp [scanFile, fileText, h]
  | some text => simp [scanFile, fileText, h, extractBlocks_eq]

theorem GetMatches_eq_scanRecords (readFile : GoString → Option GoString)
    (files : List GoString) (ms : List DNAFile) :
    GetMatches readFile files ms = (scanRecords readFile files).map fun recs => ms ++ recs := by
  induction files generalizing ms with
  | nil => simp [GetMatches, scanRecords]
  | cons element rest ih =>
    rw [GetMatches, scanFile_eq_map, scanRecords]
    cases fileText readFile element with
    | none => rfl
    | some text =>
      simp only [Option.map_some', Option.some_bind, ih, Option.map_map]
      cases scanRecords readFile rest with
      | none => rfl
      | some recs => simp

theorem GetMatches_append (readFile : GoString → Option GoString)
    (fs1 fs2 : List GoString) (ms : List DNAFile) :
    GetMatches readFile (fs1 ++ fs2) ms =
      (GetMatches readFile fs1 ms).bind fun ms1 => GetMatches readFile fs2 ms1 := by
  induction fs1 generalizing ms with
  | nil => rfl
  | cons element rest ih =>
    rw [List.cons_append, GetMatches, GetMatches]
    cases scanFile readFile ms element with
    | none => rfl
    | some ms1 => simp only [Option.some_bind, ih]

/-- Claim C16: `GetMatches` over `fs1 ++ fs2` is `GetMatches` over `fs1`
followed by `GetMatches` over `fs2`; the store after it is the store before
it followed by the records of the files in the order of the list, each file
with its records in the order of its blocks; the old store stays in front. -/
theorem GetMatches_order (readFile : GoString → Option GoString)
    (files fs1 fs2 : List GoString) (element text : GoString) (ms : List DNAFile) :
    GetMatches readFile (fs1 ++ fs2) ms =
      ((GetMatches readFile fs1 ms).bind fun ms1 => GetMatches readFile fs2 ms1) ∧
    GetMatches readFile files ms =
      ((scanRecords readFile files).map fun recs => ms ++ recs) ∧
    scanRecords readFile (element :: files) =
      ((fileText readFile element).bind fun t =>
        (scanRecords readFile files).map fun recs => fileRecords element t ++ recs) ∧
    fileRecords element text =
      ((findBlocks text).map (blockFields element)).filter
        (fun r => decide (r.Description ≠ [])) ∧
    ∀ ms1, GetMatches readFile files ms = some ms1 → ms <+: ms1 := by
  refine ⟨GetMatches_append _ _ _ _, GetMatches_eq_scanRecords _ _ _, rfl, rfl, ?_⟩
  intro ms1 h
  obtain ⟨new, hn, _⟩ := GetMatches_appends h
  exact ⟨new, hn.symm⟩

theorem GetMatches_order_witness :
    GetMatches twoFiles [str "first.go", str "second.go"] threeRecords =
      some (threeRecords ++
        [{ Location := str "first.go", Description := str " first" },
         { Location := str "first.go", Description := str " second", Status := str " Done" },
         { Location := str "second.go", Description := str " adds two numbers",
           Input := str " a, b", Output := str " sum", Status := str " Done" }]) ∧
    threeRecords <+: threeRecords ++
        [{ Location := str "first.go", Description := str " first" },
         { Location := str "first.go", Description := str " second", Status := str " Done" },
         { Location := str "second.go", Description := str " adds two numbers",
           Input := str " a, b", Output := str " sum", Status := str " Done" }] :=
  ⟨by decide,
    (GetMatches_order twoFiles [str "first.go", str "second.go"] [] [] [] [] threeRecords).2.2.2.2
      _ (by decide)⟩

/-! ## A file that cannot be read -/

theorem Replace_nil (old new : GoString) : Replace old new [] = [] := rfl

theorem normalize_nil {element : GoString} (h : 5 ≤ element.length) :
    normalize element [] = some [] := by
  rw [normalize_of_le [] h]
  simp only [Replace_nil, ite_self]

theorem fileRecords_nil (element : GoString) : fileRecords element [] = [] := rfl

/-- A file that cannot be read, at a path of at least five bytes, leaves the
match store as it was. -/
theorem scanFile_unreadable {readFile : GoString → Option GoString} {u : GoString}
    (ms : List DNAFile) (hu : readFile u = none) (hlen : 5 ≤ u.length) :
    scanFile readFile ms u = some ms := by
  have h : normalize u ((readFile u).getD []) = some [] := by
    rw [hu]; exact normalize_nil hlen
  rw [scanFile_eq ms h, fileRecords_nil, List.append_nil]

/-- With a file that cannot be read, at a path of at least five bytes,
`GetMatches` gives what it gives for the list without that file. -/
theorem GetMatches_skip_unreadable {readFile : GoString → Option GoString} {u : GoString}
    (fs1 fs2 : List GoString) (ms : List DNAFile) (hu : readFile u = none)
    (hlen : 5 ≤ u.length) :
    GetMatches readFile (fs1 ++ u :: fs2) ms = GetMatches readFile (fs1 ++ fs2) ms := by
  rw [GetMatches_append, GetMatches_append]
  cases GetMatches readFile fs1 ms with
  | none => rfl
  | some ms1 =>
    simp only [Option.some_bind]
    rw [GetMatches, scanFile_unreadable ms1 hu hlen, Option.some_bind]

/-- Claim C17, the failing input: `a.c` cannot be read and `GetMatches` panics
at its extension test, where the list without `a.c` gives two records. -/
theorem GetMatches_unreadable_short_path_panics :
    twoFiles (str "a.c") = none ∧
    GetMatches twoFiles [str "first.go", str "a.c"] [] = none ∧
    GetMatches twoFiles [str "first.go"] [] =
      some [{ Location := str "first.go", Description := str " first" },
            { Location := str "first.go", Description := str " second",
              Status := str " Done" }] := by
  decide

/-! ## Text without end marker -/

theorem cut_append_of_some {s sep a b : GoString} (t : GoString) (hne : sep ≠ [])
    (h : cut s sep = some (a, b)) : cut (s ++ t) sep = some (a, b ++ t) := by
  induction s generalizing a with
  | nil =>
    cases sep with
    | nil => exact absurd rfl hne
    | cons x xs => simp [cut] at h
  | cons c s ih =>
    cases hp : sep.isPrefixOf (c :: s) with
    | true =>
      rw [cut, hp] at h
      simp only [if_true, Option.some.injEq, Prod.mk.injEq] at h
      obtain ⟨rfl, rfl⟩ := h
      obtain ⟨r, hr⟩ := List.isPrefixOf_iff_prefix.1 hp
      rw [← hr, List.append_assoc, cut_append_left]
      simp
    | false =>
      rw [cut_cons_of_not_IsPrefix hp] at h
      cases hc : cut s sep with
      | none => rw [hc] at h; cases h
      | some r =>
        obtain ⟨r1, r2⟩ := r
        rw [hc] at h
        simp only [Option.map_some', Option.some.injEq, Prod.mk.injEq] at h
        obtain ⟨rfl, rfl⟩ := h
        have hq : sep.isPrefixOf (c :: (s ++ t)) = false := by
          cases hq : sep.isPrefixOf (c :: (s ++ t)) with
          | false => rfl
          | true =>
            have h1 : sep <+: (c :: s) ++ t := List.isPrefixOf_iff_prefix.1 hq
            have hl : sep.length ≤ (c :: s).length := by
              have := cut_eq_some hc
              rw [this]
              simp only [List.length_cons, List.length_append]
              omega
            have h2 := List.prefix_of_prefix_length_le h1 (List.prefix_append _ _) hl
            rw [List.isPrefixOf_iff_prefix.2 h2] at hp
            cases hp
        rw [List.cons_append, cut_cons_of_not_IsPrefix hq, ih hc]
        rfl

theorem cut_none_iff_not_contains {s sep : GoString} (h : cut s sep = none) :
    Contains s sep = false := by
  cases hc : Contains s sep with
  | false => rfl
  | true =>
    have := cut_isSome_of_contains hc
    rw [h] at this
    cases this

/-- Without an end marker in the text there is no match. -/
theorem findBlocks_of_no_endMarker {text : GoString} (h : Contains text endMarker = false) :
    findBlocks text = [] := by
  rw [findBlocks_unfold]
  cases h1 : cut text startMarker with
  | none => rfl
  | some r =>
    obtain ⟨a, rest⟩ := r
    have hs := cut_eq_some h1
    have : Contains rest endMarker = false :=
      Contains_false_of_IsInfix (by rw [hs]; exact (List.suffix_append _ _).isInfix) h
    simp only [cut_none_of_not_contains this]

/-- Text behind `x` that brings no end marker, alone or with the end of `x`,
brings no match. -/
theorem findBlocks_append_tail (n : Nat) (x tail : GoString) (hn : x.length ≤ n)
    (hI : ∀ u, u <:+ x → Contains (u ++ tail) endMarker = true → Contains u endMarker = true)
    (ht : Contains tail endMarker = false) :
    findBlocks (x ++ tail) = findBlocks x := by
  induction n generalizing x with
  | zero =>
    have : x = [] := List.length_eq_zero.1 (Nat.le_zero.1 hn)
    subst this
    rw [List.nil_append, findBlocks_of_no_endMarker ht]
    rfl
  | succ n ih =>
    rw [findBlocks_unfold, findBlocks_unfold x]
    cases h1 : cut x startMarker with
    | some r =>
      obtain ⟨a, rest⟩ := r
      have hx := cut_eq_some h1
      have l1 := cut_length_lt (by decide) h1
      have s1 : rest <:+ x := by rw [hx]; exact List.suffix_append _ _
      rw [cut_append_of_some tail (by decide) h1]
      simp only
      cases h2 : cut rest endMarker with
      | some r2 =>
        obtain ⟨body, rest2⟩ := r2
        have hr := cut_eq_some h2
        have l2 := cut_length_lt (by decide) h2
        have s2 : rest2 <:+ rest := by rw [hr]; exact List.suffix_append _ _
        rw [cut_append_of_some tail (by decide) h2]
        simp only
        rw [ih rest2 (by omega) (fun u hu => hI u (hu.trans (s2.trans s1)))]
      | none =>
        have c1 := cut_none_iff_not_contains h2
        have c2 : Contains (rest ++ tail) endMarker = false := by
          cases hc : Contains (rest ++ tail) endMarker with
          | false => rfl
          | true =>
            rw [hI rest s1 hc] at c1
            cases c1
        simp only [cut_none_of_not_contains c2]
    | none =>
      simp only
      cases h2 : cut (x ++ tail) startMarker with
      | none => rfl
      | some r =>
        obtain ⟨a, rest⟩ := r
        have hs := cut_eq_some h2
        have c1 := cut_none_iff_not_contains h1
        have hr : Contains rest endMarker = false := by
          rcases List.append_eq_append_iff.1 hs with ⟨c, hc1, hc2⟩ | ⟨c, hc1, hc2⟩
          · exact Contains_false_of_IsInfix
              (by rw [hc2]; exact (List.suffix_append _ _).isInfix) ht
          · exfalso
            have : Contains x startMarker = true := by
              apply (Contains_iff_IsInfix _ _).2
              rw [hc1]
              exact ⟨a, c, rfl⟩
            rw [c1] at this
            cases this
        simp only [cut_none_of_not_contains hr]

theorem endMarker_tail {u tail : GoString} (hu : u <:+ endMarker)
    (ht : Contains tail endMarker = false) (h : Contains (u ++ tail) endMarker = true) :
    Contains u endMarker = true := by
  rw [endMarker_eq] at hu
  simp only [List.suffix_cons_iff, List.suffix_nil] at hu
  rw [endMarker_eq] at ht h ⊢
  have n1 : (64 : Nat) ∉ [68] := by decide
  have n2 : (64 : Nat) ∉ [78, 68] := by decide
  have n3 : (64 : Nat) ∉ [69, 78, 68] := by decide
  rcases hu with rfl | rfl | rfl | rfl | rfl | rfl
  · rfl
  · exfalso
    have e : [64, 69, 78, 68] ++ tail = 64 :: ([69, 78, 68] ++ tail) := rfl
    rw [e, Contains, Contains_append_of_head_not_mem n3 ht, Bool.or_false] at h
    simp at h
  · rw [Contains_append_of_head_not_mem n3 ht] at h; cases h
  · rw [Contains_append_of_head_not_mem n2 ht] at h; cases h
  · rw [Contains_append_of_head_not_mem n1 ht] at h; cases h
  · rw [List.nil_append, ht] at h; cases h

/-- Text behind the last end marker brings no match. -/
theorem findBlocks_after_last_endMarker (pre tail : GoString)
    (ht : Contains tail endMarker = false) :
    findBlocks (pre ++ endMarker ++ tail) = findBlocks (pre ++ endMarker) := by
  apply findBlocks_append_tail _ _ _ (le_refl _) _ ht
  intro u hu h
  rcases List.suffix_or_suffix_of_suffix hu (List.suffix_append pre endMarker) with h1 | h1
  · exact endMarker_tail h1 ht h
  · exact (Contains_iff_IsInfix _ _).2 h1.isInfix

/-! ## The editor -/

/-- Claim C18: with `0 ≤ viewIndex ≤ N-1`, hence `N ≥ 1`, `OpenInEditor` does not panic,
gives the editor the `Location` of that record and leaves the state as it
was, whatever the editor returns. -/
theorem OpenInEditor_state {G : Type} (editor : Editor) (st : Viewer G)
    (h0 : 0 ≤ st.viewIndex) (h1 : st.viewIndex ≤ (st.ms.length : Int) - 1) :
    ∃ m st1 path err, index st.ms st.viewIndex = some m ∧
      OpenInEditor editor st = some (st1, path, err) ∧ path = m.Location ∧
      st1.viewIndex = st.viewIndex ∧ st1.ms = st.ms ∧ st1 = st := by
  obtain ⟨m, hm⟩ := index_of_bounds h0 h1
  unfold OpenInEditor
  rw [hm]
  simp only [Option.map_some']
  cases editor.Run m.Location with
  | some err => exact ⟨m, st, m.Location, some err, rfl, rfl, rfl, rfl, rfl, rfl⟩
  | none =>
    cases editor.Wait m.Location with
    | some err => exact ⟨m, st, m.Location, some err, rfl, rfl, rfl, rfl, rfl, rfl⟩
    | none => exact ⟨m, st, m.Location, none, rfl, rfl, rfl, rfl, rfl, rfl⟩

theorem OpenInEditor_state_witness :
    ∃ m st1 path err, index threeRecords 1 = some m ∧
      OpenInEditor failingEditor (⟨threeRecords, 1, ()⟩ : Viewer Unit) =
        some (st1, path, err) ∧
      path = m.Location ∧ st1.viewIndex = 1 ∧ st1.ms = threeRecords ∧
      st1 = ⟨threeRecords, 1, ()⟩ :=
  OpenInEditor_state failingEditor ⟨threeRecords, 1, ()⟩ (by decide) (by decide)

/-! ## A pane call that fails -/

/-- Claim C15, amended: a navigation key whose pane call fails leaves the
index where a key that succeeds leaves it, at `min (viewIndex+1) (N-1)` for
`NextView` and at `max (viewIndex-1) 0` for `PreviousView`. -/
theorem failed_move_index {G : Type} (api : Gocui G) (st st1 : Viewer G) (mv : Move)
    (err : GoError) (hN : 1 ≤ st.ms.length) (h0 : 0 ≤ st.viewIndex)
    (h1 : st.viewIndex ≤ (st.ms.length : Int) - 1)
    (hfail : handle api st mv = some (st1, some err)) :
    st1.ms = st.ms ∧
    st1.viewIndex =
      match mv with
      | Move.next => min (st.viewIndex + 1) ((st.ms.length : Int) - 1)
      | Move.previous => max (st.viewIndex - 1) 0 := by
  cases mv with
  | next =>
    obtain ⟨st2, e2, h, hi, hm⟩ :=
      NewView_index api { st with viewIndex := st.viewIndex + 1 } hN
    have he : handle api st Move.next = NewView api { st with viewIndex := st.viewIndex + 1 } :=
      rfl
    rw [he, h] at hfail
    simp only [Option.some.injEq, Prod.mk.injEq] at hfail
    obtain ⟨rfl, _⟩ := hfail
    refine ⟨hm, ?_⟩
    rw [hi]
    unfold clampIndex
    simp only
    split_ifs <;> omega
  | previous =>
    obtain ⟨st2, e2, h, hi, hm⟩ :=
      NewView_index api { st with viewIndex := st.viewIndex - 1 } hN
    have he : handle api st Move.previous =
        NewView api { st with viewIndex := st.viewIndex - 1 } := rfl
    rw [he, h] at hfail
    simp only [Option.some.injEq, Prod.mk.injEq] at hfail
    obtain ⟨rfl, _⟩ := hfail
    refine ⟨hm, ?_⟩
    rw [hi]
    unfold clampIndex
    simp only
    split_ifs <;> omega

theorem failed_move_index_witness :
    (⟨threeRecords, 1, ()⟩ : Viewer Unit).ms = threeRecords ∧
    (⟨threeRecords, 1, ()⟩ : Viewer Unit).viewIndex =
      min ((0 : Int) + 1) ((threeRecords.length : Int) - 1) :=
  failed_move_index brokenTerminal ⟨threeRecords, 0, ()⟩ ⟨threeRecords, 1, ()⟩ Move.next
    (GoError.other 1) (by decide) (by decide) (by decide) rfl

/-- Claim C15 as stated fails: with three records at index `0`, `NextView` on
a terminal that cannot make the pane returns the error and leaves the index
at `1`. -/
theorem NextView_failed_moves_index :
    ¬ ∀ (st1 : Viewer Unit) (err : GoError),
        NextView brokenTerminal ⟨threeRecords, 0, ()⟩ = some (st1, some err) →
        st1.viewIndex = 0 := by
  intro h
  have h1 := h ⟨threeRecords, 1, ()⟩ (GoError.other 1) rfl
  revert h1
  decide

/-! ## Panes -/

/-- Claim C14, the failing input: with two records, after `Layout` the only
content pane is `0` and after `NextView` it is `1`, but `PreviousView` then
makes pane `0` again and leaves pane `1` in place: `NewView` deletes the pane
of `viewIndex-1` only. -/
theorem PreviousView_keeps_pane :
    panesAfter (threeRecords.take 2) [] = some (0, [str "0", str "main"]) ∧
    panesAfter (threeRecords.take 2) [Move.next] = some (1, [str "1", str "main"]) ∧
    panesAfter (threeRecords.take 2) [Move.next, Move.previous] =
      some (0, [str "1", str "0", str "main"]) := by
  decide

/-! ## The order of the field lines -/

theorem joinLines_append_singleton (ls : List GoString) (e : GoString) :
    joinLines (ls ++ [e]) = linesBody ls ++ e := by
  induction ls with
  | nil => rfl
  | cons l ls ih =>
    cases hls : ls ++ [e] with
    | nil => simp at hls
    | cons x xs =>
      have e1 : joinLines (l :: x :: xs) = l ++ nl :: joinLines (x :: xs) := rfl
      rw [List.cons_append, hls, e1, ← hls, ih, linesBody]
      simp

theorem blockOf_eq (lines : List GoString) :
    blockOf lines = startMarker ++ (nl :: linesBody lines) ++ endMarker := by
  unfold blockOf
  cases hls : lines ++ [endMarker] with
  | nil => simp at hls
  | cons x xs =>
    have e1 : joinLines (startMarker :: x :: xs) = startMarker ++ nl :: joinLines (x :: xs) :=
      rfl
    rw [List.cons_append, hls, e1, ← hls, joinLines_append_singleton]
    simp

theorem Contains_linesBody {lines : List GoString} (tail : GoString)
    (h : ∀ l ∈ lines, Contains l endMarker = false) (ht : Contains tail endMarker = false) :
    Contains (linesBody lines ++ tail) endMarker = false := by
  induction lines with
  | nil => exact ht
  | cons l ls ih =>
    rw [linesBody, List.append_assoc, List.cons_append]
    exact Contains_append_cons (by decide) (h l (List.mem_cons_self _ _))
      (ih fun x hx => h x (List.mem_cons_of_mem _ hx))

/-- A block whose lines have no end marker is matched whole. -/
theorem findBlocks_blockOf {lines : List GoString}
    (h : ∀ l ∈ lines, Contains l endMarker = false) :
    findBlocks (blockOf lines) = [blockOf lines] := by
  rw [blockOf_eq]
  apply findBlocks_single
  have e : nl :: linesBody lines ++ endMarker.dropLast =
      [] ++ nl :: (linesBody lines ++ endMarker.dropLast) := rfl
  rw [e]
  exact Contains_append_cons (by decide) (by decide) (Contains_linesBody _ h (by decide))

theorem splitLines_blockOf {lines : List GoString} (h : ∀ l ∈ lines, nl ∉ l) :
    splitLines (blockOf lines) = startMarker :: lines ++ [endMarker] := by
  apply splitLines_joinLines (by simp)
  intro l hl
  simp only [List.cons_append, List.mem_cons, List.mem_append, List.mem_singleton,
    List.not_mem_nil, or_false] at hl
  rcases hl with rfl | hl | rfl
  · decide
  · exact h l hl
  · decide

theorem blockFields_blockOf (element : GoString) {lines : List GoString}
    (h : ∀ l ∈ lines, nl ∉ l) :
    blockFields element (blockOf lines) =
      { lines.foldl lineField {} with Location := element } := by
  rw [blockFields, splitLines_blockOf h]
  simp only [List.cons_append, List.foldl_cons, List.foldl_append, List.foldl_nil,
    lineField_startMarker, lineField_endMarker]

theorem setField_comm (t : DNAFile) {f g : Field} (v w : GoString) (h : f ≠ g) :
    setField (setField t f v) g w = setField (setField t g w) f v := by
  cases f <;> cases g <;> first | rfl | exact absurd rfl h

/-- Two lines that do not assign the same field can change places. -/
theorem lineField_comm (t : DNAFile) (a b : GoString)
    (h : ∀ f, ¬ (assigns f a = true ∧ assigns f b = true)) :
    lineField (lineField t a) b = lineField (lineField t b) a := by
  simp only [lineField_eq_lineCase]
  cases ha : lineCase a with
  | none => rfl
  | some ra =>
    cases hb : lineCase b with
    | none => rfl
    | some rb =>
      obtain ⟨f, v⟩ := ra
      obtain ⟨g, w⟩ := rb
      simp only
      apply setField_comm
      intro e
      apply h f
      simp [assigns, ha, hb, e]

theorem assigns_contains {f : Field} {line : GoString} (h : assigns f line = true) :
    Contains line (labelOf f) = true := by
  simp only [assigns, decide_eq_true_eq] at h
  have h2 : Contains (TrimSpace line) (labelOf f) = true := by
    unfold lineCase at h
    simp only at h
    split_ifs at h with h1 h2 h3 h4 h5
    · cases h
    · simp only [Option.map_some', Option.some.injEq] at h
      rw [← h]; exact h2
    · simp only [Option.map_some', Option.some.injEq] at h
      rw [← h]; exact h3
    · simp only [Option.map_some', Option.some.injEq] at h
      rw [← h]; exact h4
    · simp only [Option.map_some', Option.some.injEq] at h
      rw [← h]; exact h5
    · cases h
  exact (Contains_iff_IsInfix _ _).2
    (((Contains_iff_IsInfix _ _).1 h2).trans (TrimSpace_IsInfix line))

/-- Lines of which no two assign the same field give the same record in any
order. -/
theorem foldl_lineField_perm {l1 l2 : List GoString} (hp : l1.Perm l2) :
    (∀ f, l1.countP (assigns f) ≤ 1) →
      ∀ t, l1.foldl lineField t = l2.foldl lineField t := by
  induction hp with
  | nil => intro _ _; rfl
  | cons x _ ih =>
    intro h t
    rw [List.foldl_cons, List.foldl_cons]
    apply ih
    intro f
    have := h f
    rw [List.countP_cons] at this
    omega
  | swap x y l =>
    intro h t
    rw [List.foldl_cons, List.foldl_cons, List.foldl_cons, List.foldl_cons]
    rw [lineField_comm t y x]
    intro f ⟨hy, hx⟩
    have := h f
    rw [List.countP_cons, List.countP_cons, if_pos hy, if_pos hx] at this
    omega
  | trans p1 _ ih1 ih2 =>
    intro h t
    rw [ih1 h t]
    apply ih2
    intro f
    rw [← p1.countP_eq]
    exact h f

theorem countP_assigns_le {lines : List GoString} (f : Field)
    (h : lines.countP (fun l => Contains l (labelOf f)) ≤ 1) :
    lines.countP (assigns f) ≤ 1 :=
  le_trans (List.countP_mono_left fun _ _ hx => assigns_contains hx) h

/-- Claim C12: a block with a description line, each label on at most one of
its lines, gives one record with the path as `Location`, and the same record
with its field lines in any other order. -/
theorem permuted_block_same_record (p : GoString) (lines lines2 : List GoString)
    (ms : List DNAFile) (hperm : lines2.Perm lines)
    (hnl : ∀ l ∈ lines, nl ∉ l) (hend : ∀ l ∈ lines, Contains l endMarker = false)
    (hdesc : ∃ l ∈ lines, isDescriptionLine l = true)
    (hone : ∀ f, lines.countP (fun l => Contains l (labelOf f)) ≤ 1) :
    ∃ r, blockRecord p (blockOf lines) = some r ∧ r.Location = p ∧
      extractBlocks p (blockOf lines) ms = some (ms ++ [r]) ∧
      extractBlocks p (blockOf lines2) ms = some (ms ++ [r]) ∧
      ∀ (readFile : GoString → Option GoString) (data : GoString),
        readFile p = some data → normalize p data = some (blockOf lines2) →
        GetMatches readFile [p] ms = some (ms ++ [r]) := by
  have hnl2 : ∀ l ∈ lines2, nl ∉ l := fun l hl => hnl l (hperm.mem_iff.1 hl)
  have hend2 : ∀ l ∈ lines2, Contains l endMarker = false :=
    fun l hl => hend l (hperm.mem_iff.1 hl)
  have hf : blockFields p (blockOf lines2) = blockFields p (blockOf lines) := by
    rw [blockFields_blockOf p hnl2, blockFields_blockOf p hnl,
      foldl_lineField_perm hperm.symm (fun f => countP_assigns_le f (hone f))]
  have hd : (blockFields p (blockOf lines)).Description ≠ [] := by
    rw [blockFields_blockOf p hnl]
    exact foldl_lineField_Description_ne _ (Or.inr hdesc)
  have e1 : extractBlocks p (blockOf lines) ms =
      some (ms ++ [blockFields p (blockOf lines)]) := by
    rw [extractBlocks_eq, fileRecords, findBlocks_blockOf hend]
    simp [keptRecords, hd]
  have e2 : extractBlocks p (blockOf lines2) ms =
      some (ms ++ [blockFields p (blockOf lines)]) := by
    rw [extractBlocks_eq, fileRecords, findBlocks_blockOf hend2]
    simp [keptRecords, hf, hd]
  exact ⟨blockFields p (blockOf lines), blockRecord_eq _ _, rfl, e1, e2,
    fun readFile data hr hn => by rw [GetMatches_single ms hr hn, e2]⟩

theorem permuted_block_same_record_witness :
    ∃ r, blockRecord (str "main.go") (blockOf scenarioLines) = some r ∧
      r.Location = str "main.go" ∧
      extractBlocks (str "main.go") (blockOf scenarioLines) [] = some ([] ++ [r]) ∧
      extractBlocks (str "main.go") (blockOf scenarioLines.reverse) [] = some ([] ++ [r]) ∧
      ∀ (readFile : GoString → Option GoString) (data : GoString),
        readFile (str "main.go") = some data →
        normalize (str "main.go") data = some (blockOf scenarioLines.reverse) →
        GetMatches readFile [str "main.go"] [] = some ([] ++ [r]) :=
  permuted_block_same_record (str "main.go") scenarioLines scenarioLines.reverse []
    (List.reverse_perm _) (by decide) (by decide)
    ⟨str "Description: adds two numbers", by decide, by decide⟩
    (fun f => by cases f <;> decide)

/-! ## The text of a file and its content -/

/-- Claim C3, amended: two tagged blocks, neither with a second end marker and
each with a description line, with a text without start marker between them,
are matched one by one and give two records, each the record of its block
alone, when they are the text that the extension step leaves of the file; that
is the content of the file itself at a path of at least five bytes that ends
in none of `.java`, `.js`, `.py`. -/
theorem extractBlocks_two_blocks (element body1 body2 sep : GoString) (ms : List DNAFile)
    (h1 : Contains (tagged body1).dropLast endMarker = false)
    (h2 : Contains (tagged body2).dropLast endMarker = false)
    (hsep : Contains sep startMarker = false)
    (hd1 : hasDescriptionLine (tagged body1)) (hd2 : hasDescriptionLine (tagged body2)) :
    findBlocks (tagged body1 ++ sep ++ tagged body2) = [tagged body1, tagged body2] ∧
    ∃ r1 r2, blockRecord element (tagged body1) = some r1 ∧
      blockRecord element (tagged body2) = some r2 ∧
      extractBlocks element (tagged body1 ++ sep ++ tagged body2) ms = some (ms ++ [r1, r2]) ∧
      (∀ (readFile : GoString → Option GoString) (data : GoString),
        readFile element = some data →
        normalize element data = some (tagged body1 ++ sep ++ tagged body2) →
        GetMatches readFile [element] ms = some (ms ++ [r1, r2])) ∧
      ∀ (readFile : GoString → Option GoString),
        readFile element = some (tagged body1 ++ sep ++ tagged body2) →
        5 ≤ element.length → ¬ str ".java" <:+ element → ¬ str ".js" <:+ element →
        ¬ str ".py" <:+ element →
        GetMatches readFile [element] ms = some (ms ++ [r1, r2]) := by
  have hb : findBlocks (tagged body1 ++ sep ++ tagged body2) = [tagged body1, tagged body2] := by
    have e : tagged body1 ++ sep ++ tagged body2 =
        [] ++ tagged body1 ++ (sep ++ tagged body2 ++ []) := by simp
    have e2 : findBlocks [] = [] := rfl
    rw [e, findBlocks_cons _ (by decide) (body_of_tagged_dropLast h1),
      findBlocks_cons _ hsep (body_of_tagged_dropLast h2), e2]
  have he : extractBlocks element (tagged body1 ++ sep ++ tagged body2) ms =
      some (ms ++ [blockFields element (tagged body1), blockFields element (tagged body2)]) := by
    rw [extractBlocks_eq, fileRecords, hb, keptRecords_cons,
      keptRecords_of_hasDescriptionLine element hd1,
      keptRecords_of_hasDescriptionLine element hd2]
    rfl
  exact ⟨hb, blockFields element (tagged body1), blockFields element (tagged body2),
    blockRecord_eq _ _, blockRecord_eq _ _, he,
    fun readFile data hr hn => by rw [GetMatches_single ms hr hn, he],
    fun readFile hr hlen n1 n2 n3 => by
      rw [GetMatches_single ms hr (normalize_other _ hlen n1 n2 n3), he]⟩

theorem extractBlocks_two_blocks_witness :
    findBlocks (tagged bodyOne ++ [] ++ tagged bodyTwo) = [tagged bodyOne, tagged bodyTwo] ∧
    ∃ r1 r2, blockRecord (str "main.go") (tagged bodyOne) = some r1 ∧
      blockRecord (str "main.go") (tagged bodyTwo) = some r2 ∧
      extractBlocks (str "main.go") (tagged bodyOne ++ [] ++ tagged bodyTwo) [] =
        some ([] ++ [r1, r2]) ∧
      (∀ (readFile : GoString → Option GoString) (data : GoString),
        readFile (str "main.go") = some data →
        normalize (str "main.go") data = some (tagged bodyOne ++ [] ++ tagged bodyTwo) →
        GetMatches readFile [str "main.go"] [] = some ([] ++ [r1, r2])) ∧
      ∀ (readFile : GoString → Option GoString),
        readFile (str "main.go") = some (tagged bodyOne ++ [] ++ tagged bodyTwo) →
        5 ≤ (str "main.go").length → ¬ str ".java" <:+ str "main.go" →
        ¬ str ".js" <:+ str "main.go" → ¬ str ".py" <:+ str "main.go" →
        GetMatches readFile [str "main.go"] [] = some ([] ++ [r1, r2]) :=
  extractBlocks_two_blocks (str "main.go") bodyOne bodyTwo [] [] (by decide) (by decide)
    (by decide) ⟨str "Description: first", by decide, by decide⟩
    ⟨str "Description: second", by decide, by decide⟩

/-- Claim C3 as stated fails on the content of a `.py` file: the two blocks
have one end marker and a description line each, but the removal of `#`
empties the description of the first and `GetMatches` appends one record. -/
theorem two_blocks_in_py_one_record :
    Contains (tagged bodyHash).dropLast endMarker = false ∧
    Contains (tagged bodyTwo).dropLast endMarker = false ∧
    hasDescriptionLine (tagged bodyHash) ∧ hasDescriptionLine (tagged bodyTwo) ∧
    GetMatches (fun _ => some (tagged bodyHash ++ [] ++ tagged bodyTwo)) [str "xx.py"] [] =
      some [{ Location := str "xx.py", Description := str " second", Status := str " Done" }] ∧
    ¬ ∃ r1 r2 : DNAFile,
      GetMatches (fun _ => some (tagged bodyHash ++ [] ++ tagged bodyTwo)) [str "xx.py"] [] =
        some ([] ++ [r1, r2]) := by
  have h : GetMatches (fun _ => some (tagged bodyHash ++ [] ++ tagged bodyTwo))
      [str "xx.py"] [] =
      some [{ Location := str "xx.py", Description := str " second",
              Status := str " Done" }] := by
    decide
  refine ⟨by decide, by decide, ⟨str "Description: #", by decide, by decide⟩,
    ⟨str "Description: second", by decide, by decide⟩, h, ?_⟩
  rintro ⟨r1, r2, hr⟩
  rw [h] at hr
  simp at hr

/-- Claim C13, amended: when the text that the extension step leaves of a file
has no `@@END`, it has no match and `GetMatches` appends no record for the
file; that text is the content of the file itself at a path of at least five
bytes that ends in none of `.java`, `.js`, `.py`; text behind the last `@@END`
changes neither the matches nor the records. -/
theorem no_endMarker_no_record (element text pre tail : GoString) (ms : List DNAFile)
    (h : Contains text endMarker = false) (ht : Contains tail endMarker = false) :
    findBlocks text = [] ∧ extractBlocks element text ms = some ms ∧
    (∀ (readFile : GoString → Option GoString) (data : GoString),
      readFile element = some data → normalize element data = some text →
      GetMatches readFile [element] ms = some ms) ∧
    (∀ (readFile : GoString → Option GoString),
      readFile element = some text → 5 ≤ element.length → ¬ str ".java" <:+ element →
      ¬ str ".js" <:+ element → ¬ str ".py" <:+ element →
      GetMatches readFile [element] ms = some ms) ∧
    findBlocks (pre ++ endMarker ++ tail) = findBlocks (pre ++ endMarker) ∧
    extractBlocks element (pre ++ endMarker ++ tail) ms =
      extractBlocks element (pre ++ endMarker) ms := by
  have h1 := findBlocks_of_no_endMarker h
  have h2 : extractBlocks element text ms = some ms := by
    rw [extractBlocks_eq, fileRecords, h1]
    simp [keptRecords]
  refine ⟨h1, h2, fun readFile data hr hn => by rw [GetMatches_single ms hr hn, h2],
    fun readFile hr hlen n1 n2 n3 => by
      rw [GetMatches_single ms hr (normalize_other _ hlen n1 n2 n3), h2],
    findBlocks_after_last_endMarker pre tail ht, ?_⟩
  rw [extractBlocks_eq, extractBlocks_eq, fileRecords, fileRecords,
    findBlocks_after_last_endMarker pre tail ht]

theorem no_endMarker_no_record_witness :
    findBlocks (startMarker ++ str " Description: never closed") = [] ∧
    extractBlocks (str "main.go") (startMarker ++ str " Description: never closed")
      threeRecords = some threeRecords ∧
    (∀ (readFile : GoString → Option GoString) (data : GoString),
      readFile (str "main.go") = some data →
      normalize (str "main.go") data =
        some (startMarker ++ str " Description: never closed") →
      GetMatches readFile [str "main.go"] threeRecords = some threeRecords) ∧
    (∀ (readFile : GoString → Option GoString),
      readFile (str "main.go") = some (startMarker ++ str " Description: never closed") →
      5 ≤ (str "main.go").length → ¬ str ".java" <:+ str "main.go" →
      ¬ str ".js" <:+ str "main.go" → ¬ str ".py" <:+ str "main.go" →
      GetMatches readFile [str "main.go"] threeRecords = some threeRecords) ∧
    findBlocks (startMarker ++ bodyOne ++ endMarker ++ (startMarker ++ bodyTwo)) =
      findBlocks (startMarker ++ bodyOne ++ endMarker) ∧
    extractBlocks (str "main.go")
        (startMarker ++ bodyOne ++ endMarker ++ (startMarker ++ bodyTwo)) threeRecords =
      extractBlocks (str "main.go") (startMarker ++ bodyOne ++ endMarker) threeRecords :=
  no_endMarker_no_record (str "main.go") (startMarker ++ str " Description: never closed")
    (startMarker ++ bodyOne) (startMarker ++ bodyTwo) threeRecords (by decide) (by decide)

/-- Claim C13 as stated fails on the content of a `.java` file: the content
has no `@@END`, but the removal of `//` makes one and `GetMatches` appends a
record. -/
theorem endMarker_made_by_removal :
    Contains slashInEndMarker endMarker = false ∧
    GetMatches (fun _ => some slashInEndMarker) [str "A.java"] [] =
      some [{ Location := str "A.java", Description := str " x" }] ∧
    ¬ GetMatches (fun _ => some slashInEndMarker) [str "A.java"] [] = some [] := by
  have h : GetMatches (fun _ => some slashInEndMarker) [str "A.java"] [] =
      some [{ Location := str "A.java", Description := str " x" }] := by
    decide
  refine ⟨by decide, h, ?_⟩
  rw [h]
  simp

end DNA
